import Mathlib

/-!
Verification development for the distributed label-propagation engine of
`src/src/logSortGraph500.cpp` (metag_partitioning).

The engine's unit of state is the triple `(kmer, Pn, Pc)` (`std::tuple`, field
indices `kmerTuple::kmer = 0`, `Pn = 1`, `Pc = 2`; see `include/configParam.hpp`).
Machine values are 64-bit (`kmer`) and 32-bit (`Pn`, `Pc`) unsigned integers; the
engine only compares and copies them (no arithmetic), so they are embedded as
`Nat` with the sentinel constants written out explicitly.

The MPI collectives (from the external `mxx` library) are embedded per the
collective contract of the specification, section 4.2: a distributed state is a
list of per-rank lists, a distributed sort is a global stable sort re-split into
the original per-rank slice sizes, exclusive scans and shifts deliver the
reduction/value of the strictly lower (resp. higher) ranks and a
value-initialized tuple `(0,0,0)` at the boundary rank (as `mxx` does for
`std::tuple`).
-/

/-- Engine tuple `(key, pn, pc)`: field 0 is the k-mer/vertex id, field 1 the
candidate label `Pn`, field 2 the current label `Pc`. -/
structure Tup where
  key : Nat
  pn : Nat
  pc : Nat
deriving DecidableEq, Repr

/-- `MAX = std::numeric_limits<uint32_t>::max()`; the `inactive_partition`
sentinel of `cluster_reads_par_inactive` (line 425). `MAXU - 1` is the
`ALMOST_INACTIVE` witness sentinel (`inactive_partition - 1`). -/
def MAXU : Nat := 4294967295

/-- Value-initialized tuple: what `mxx` exscan/shift deliver at the boundary
rank of the communicator, where the specification leaves the value unspecified. -/
def zeroTup : Tup := ⟨0, 0, 0⟩

/-- Ordering by k-mer id (`layer_comparator<kmerTuple::kmer>`), non-strict so a
stable sort with it matches the C++ stable distributed sort. -/
def leKey (x y : Tup) : Prop := x.key ≤ y.key

/-- Lexicographic `(Pc, Pn)` ordering: the main-loop sort comparator
(lines 241-246 and 491-496), non-strict form. -/
def lePcPn (x y : Tup) : Prop := x.pc < y.pc ∨ (x.pc = y.pc ∧ x.pn ≤ y.pn)

/-- Ordering by `Pc` only: the seed-extraction sort comparator
(`get_partition_seeds`, lines 93-99), non-strict form. -/
def lePc (x y : Tup) : Prop := x.pc ≤ y.pc

instance : DecidableRel leKey := fun x y => inferInstanceAs (Decidable (x.key ≤ y.key))

instance : DecidableRel lePcPn := fun x y =>
  inferInstanceAs (Decidable (x.pc < y.pc ∨ (x.pc = y.pc ∧ x.pn ≤ y.pn)))

instance : DecidableRel lePc := fun x y => inferInstanceAs (Decidable (x.pc ≤ y.pc))

instance : IsTotal Tup leKey := ⟨fun x y => Nat.le_total x.key y.key⟩

instance : IsTrans Tup leKey := ⟨fun _ _ _ h1 h2 => Nat.le_trans h1 h2⟩

instance : IsTotal Tup lePcPn := by
  constructor
  intro x y
  rcases Nat.lt_trichotomy x.pc y.pc with h | h | h
  · exact Or.inl (Or.inl h)
  · rcases Nat.le_total x.pn y.pn with h2 | h2
    · exact Or.inl (Or.inr ⟨h, h2⟩)
    · exact Or.inr (Or.inr ⟨h.symm, h2⟩)
  · exact Or.inr (Or.inl h)

instance : IsTrans Tup lePcPn := by
  constructor
  intro x y z h1 h2
  rcases h1 with h1 | ⟨e1, p1⟩
  · rcases h2 with h2 | ⟨e2, _⟩
    · exact Or.inl (Nat.lt_trans h1 h2)
    · exact Or.inl (e2 ▸ h1)
  · rcases h2 with h2 | ⟨e2, p2⟩
    · exact Or.inl (e1 ▸ h2)
    · exact Or.inr ⟨e1.trans e2, Nat.le_trans p1 p2⟩

instance : IsTotal Tup lePc := ⟨fun x y => Nat.le_total x.pc y.pc⟩

instance : IsTrans Tup lePc := ⟨fun _ _ _ h1 h2 => Nat.le_trans h1 h2⟩

/-- Global stable sort by k-mer id (`mxx::sort` at lines 225 and 476). -/
def sortKey (l : List Tup) : List Tup := List.insertionSort leKey l

/-- Global stable sort by `(Pc, Pn)` (`mxx::sort` at lines 241 and 491). -/
def sortPcPn (l : List Tup) : List Tup := List.insertionSort lePcPn l

/-- Sort by `Pc` (`mxx::sort`/`std::sort` in `get_partition_seeds`). -/
def sortPc (l : List Tup) : List Tup := List.insertionSort lePc l

/-- Graph500 input tuples: `Graph500Generator::generate` (lines 62-69) emits one
tuple `(a, a, b)` per valid edge `(a, b)`. -/
def genTuples (edges : List (Nat × Nat)) : List Tup :=
  edges.map (fun e => ⟨e.1, e.1, e.2⟩)

/-- Modelled from the spec: `KmerReduceAndMarkAsInactive` lives in
`sortTuples.hpp`, which is not among the provided sources. Per specification
section 4.3 it computes, for each maximal run of equal `key` in the globally
key-sorted sequence, `m = min pc` over the run and sets `pn := m` for every
tuple of the run; tuples left at the scan's sentinel are then normalized to
`pn := pc` by the loop at lines 234-238 of the source, which for a singleton run
coincides with `pn := m`. This function produces the already-normalized result
on one run. -/
def kmerRunUpdate (run : List Tup) (d : Nat) : List Tup :=
  let m := (run.map Tup.pc).foldr Nat.min d
  run.map (fun t => ⟨t.key, m, t.pc⟩)

/-- Walk the key-sorted sequence run by run (fuel-indexed recursion over maximal
runs of equal `key`; the fuel is the list length, which always suffices). -/
def kmerRunsAux : Nat → List Tup → List Tup
  | 0, _ => []
  | _ + 1, [] => []
  | n + 1, x :: xs =>
    let run := (x :: xs).takeWhile (fun t => t.key == x.key)
    let rest := (x :: xs).dropWhile (fun t => t.key == x.key)
    kmerRunUpdate run x.pc ++ kmerRunsAux n rest

/-- Modelled from the spec: the one-time k-mer reduction (`C3`), global view:
sort by `key`, then update each run. -/
def kmerReduceGlobal (l : List Tup) : List Tup :=
  kmerRunsAux (sortKey l).length (sortKey l)

/-- Re-split a globally sorted sequence into contiguous per-rank slices of the
given sizes (the distribution contract of the embedded `mxx::sort`). -/
def splitSizes : List Nat → List Tup → List (List Tup)
  | [], _ => []
  | s :: ss, l => l.take s :: splitSizes ss (l.drop s)

/-- Block-decomposition sizes: `n` elements over `p` ranks, first `n % p` ranks
get one extra element (`mxx::block_decompose`). -/
def blockSizes (n p : Nat) : List Nat :=
  (List.range p).map (fun i => n / p + if i < n % p then 1 else 0)

/-- The `mxx::exscan` reducer of lines 268-276 and 531-539: of two tuples keep
the one with larger `Pc`, tie-broken to the smaller `Pn` (comment in source:
"return max Pc, if equal, return min Pn"). -/
def reduceLeftMin (x y : Tup) : Tup :=
  if x.pc < y.pc ∨ (x.pc = y.pc ∧ x.pn > y.pn) then y else x

/-- The `mxx::reverse_exscan` reducer of lines 281-289 and 544-552: keep the
tuple with smaller `Pc`, tie-broken to the larger `Pn` (comment in source:
"return min Pc, if equal, return max Pn"). -/
def reduceRightMin (x y : Tup) : Tup :=
  if x.pc > y.pc ∨ (x.pc = y.pc ∧ x.pn < y.pn) then y else x

/-- Helper for the exclusive scan: emit the running reduction before each
element. -/
def exscanAux (f : Tup → Tup → Tup) : Tup → List Tup → List Tup
  | _, [] => []
  | acc, x :: xs => acc :: exscanAux f (f acc x) xs

/-- `mxx::exscan` over the communicator: rank `r` receives the reduction of the
contributions of ranks `0..r-1`; rank `0` receives the value-initialized tuple. -/
def exscanVals (f : Tup → Tup → Tup) : List Tup → List Tup
  | [] => []
  | x :: xs => zeroTup :: exscanAux f x xs

/-- `mxx::reverse_exscan`: rank `r` receives the reduction of the contributions
of ranks `r+1..p-1`; the last rank receives the value-initialized tuple. -/
def revExscanVals (f : Tup → Tup → Tup) (l : List Tup) : List Tup :=
  (exscanVals f l.reverse).reverse

/-- `mxx::right_shift`: rank `r` receives rank `r-1`'s contribution; rank 0 the
value-initialized tuple. -/
def rightShiftVals (l : List Tup) : List Tup := zeroTup :: l.dropLast

/-- Last element of a rank's slice (used for `prev_el = right_shift(*(end-1))`). -/
def lastEltD (s : List Tup) : Tup := s.getLastD zeroTup

/-- `last_min` of a slice (lines 265-266, 528-529): the first element of the
last `Pc`-bucket, i.e. the first element whose `Pc` equals the last element's
`Pc` (the `lower_bound` on the sorted slice). -/
def lastMinOf (s : List Tup) : Tup :=
  ((s.find? (fun t => t.pc == (s.getLastD zeroTup).pc)).getD (s.getLastD zeroTup))

/-- `first_max` of a slice (lines 280, 543): the last element of the first
`Pc`-bucket (the `upper_bound - 1` on the sorted slice). -/
def firstMaxOf (s : List Tup) : Tup :=
  ((s.takeWhile (fun t => t.pc == (s.headD zeroTup).pc)).getLastD (s.headD zeroTup))

/-- The bucket's smallest `Pn` as the scan computes it (lines 300-305, 566-571):
the first element's `Pn`, overridden by `prev_min`'s `Pn` when this rank is not
the first of its communicator and `prev_min` extends the bucket leftward. The
naive variant instantiates `arank` with the world rank, the retirement variant
with the subgroup rank. -/
def bucketMinPn (arank : Nat) (prev_min b0 : Tup) : Nat :=
  if arank > 0 && prev_min.pc == b0.pc then prev_min.pn else b0.pn

/-- The bucket's largest `Pn` (lines 307-311, 573-577), symmetric override by
`next_max`. -/
def bucketMaxPn (arank ap : Nat) (next_max b0 lastT : Tup) : Nat :=
  if arank < ap - 1 && next_max.pc == b0.pc then next_max.pn else lastT.pn

/-- The label the retirement variant broadcasts into a non-converged bucket:
`bucketMinPn`, additionally lowered to the bucket's `Pc` when that is smaller
(lines 617-618: `if (min_pn > std::get<Pc>(*eqr.first)) min_pn = ...`). -/
def effectiveMinPn (arank : Nat) (prev_min b0 : Tup) : Nat :=
  let m := bucketMinPn arank prev_min b0
  if m > b0.pc then b0.pc else m

/-- Inner per-element loop of the naive bucket scan (lines 343-365): the
duplicate/self rule (flip the first duplicate, collapse the rest onto `min_pn`)
and the edge rule (swap `Pn`/`Pc`, then `Pn := min_pn`). -/
def naiveInner (min_pn : Nat) : Nat → Bool → List Tup → List Tup × Bool
  | _, ff, [] => ([], ff)
  | prev_pn, ff, t :: rest =>
    let next_pn := t.pn
    let step : Tup × Bool :=
      if t.pn == prev_pn || t.pn == t.pc then
        if !ff then (⟨t.key, t.pc, min_pn⟩, true)
        else (⟨t.key, min_pn, min_pn⟩, ff)
      else (⟨t.key, min_pn, t.pn⟩, ff)
    let rec' := naiveInner min_pn next_pn step.2 rest
    (step.1 :: rec'.1, rec'.2)

/-- Inner per-element loop of the retirement bucket scan (lines 633-657): as the
naive one, but an element carrying the `ALMOST_INACTIVE` witness sentinel first
restores `Pn := Pc` (lines 634-635). -/
def inactInner (min_pn : Nat) : Nat → Bool → List Tup → List Tup × Bool
  | _, ff, [] => ([], ff)
  | prev_pn, ff, t0 :: rest =>
    let t : Tup := if t0.pn == MAXU - 1 then ⟨t0.key, t0.pc, t0.pc⟩ else t0
    let next_pn := t.pn
    let step : Tup × Bool :=
      if t.pn == prev_pn || t.pn == t.pc then
        if !ff then (⟨t.key, t.pc, min_pn⟩, true)
        else (⟨t.key, min_pn, min_pn⟩, ff)
      else (⟨t.key, min_pn, t.pn⟩, ff)
    let rec' := inactInner min_pn next_pn step.2 rest
    (step.1 :: rec'.1, rec'.2)

/-- One bucket of the naive scan (loop body, lines 295-377). Returns the updated
bucket, the locally synthesized flip tuples, and `true` when the bucket did not
hit the non-singleton non-converged case (the contribution to the rank's `done`
flag). `pm`, `pe`, `nm` are `prev_min`, `prev_el`, `next_max`. -/
def naiveBucket (rank p : Nat) (pm pe nm : Tup) (b : List Tup) :
    List Tup × List Tup × Bool :=
  match b with
  | [] => ([], [], true)
  | b0 :: rest =>
    let min_pn := bucketMinPn rank pm b0
    let max_pn := bucketMaxPn rank p nm b0 ((b0 :: rest).getLastD zeroTup)
    if rest.isEmpty && (rank == 0 || (rank > 0 && b0.pc != pe.pc)) then
      ([⟨b0.key, b0.pn, b0.pn⟩], [], true)
    else if min_pn == max_pn then
      ((b0 :: rest).map (fun t => ⟨t.key, t.pn, t.pn⟩), [], true)
    else
      let pr : List Tup × Bool :=
        if rank == 0 || (rank > 0 && b0.pc != pe.pc) then
          let r := naiveInner min_pn min_pn false rest
          (b0 :: r.1, r.2)
        else naiveInner min_pn pe.pn false (b0 :: rest)
      let newts : List Tup :=
        if pr.2 then []
        else
          match pr.1 with
          | [] => []
          | h :: _ => [⟨h.key, h.pc, h.pn⟩]
      (pr.1, newts, false)

/-- One bucket of the retirement scan (loop body, lines 561-669). `rank` is the
world rank, `arank`/`ap` the rank and size within the subgroup of non-empty
ranks. Note the singleton and boundary-override guards use `arank` while the
left-shared guard of the inner loop (line 626) uses the world `rank`, exactly
as in the source. -/
def inactBucket (rank arank ap : Nat) (pm pe nm : Tup) (b : List Tup) :
    List Tup × List Tup × Bool :=
  match b with
  | [] => ([], [], true)
  | b0 :: rest =>
    let min_pn0 := bucketMinPn arank pm b0
    let max_pn := bucketMaxPn arank ap nm b0 ((b0 :: rest).getLastD zeroTup)
    if rest.isEmpty && (arank == 0 || (arank > 0 && b0.pc != pe.pc)) then
      if b0.pn == MAXU - 1 then ([⟨b0.key, MAXU, b0.pc⟩], [], true)
      else ([⟨b0.key, b0.pn, b0.pn⟩], [], true)
    else if min_pn0 == max_pn then
      if max_pn == MAXU - 1 then
        ((b0 :: rest).map (fun t => ⟨t.key, MAXU, t.pc⟩), [], true)
      else if b0.pc == max_pn then
        ((b0 :: rest).map (fun t => ⟨t.key, MAXU - 1, t.pc⟩), [], true)
      else ((b0 :: rest).map (fun t => ⟨t.key, t.pn, t.pn⟩), [], true)
    else
      let min_pn := effectiveMinPn arank pm b0
      let pr : List Tup × Bool :=
        if rank == 0 || (rank > 0 && b0.pc != pe.pc) then
          let b0' : Tup := if b0.pn > min_pn then ⟨b0.key, min_pn, b0.pc⟩ else b0
          let r := inactInner min_pn min_pn false rest
          (b0' :: r.1, r.2)
        else inactInner min_pn pe.pn false (b0 :: rest)
      let newts : List Tup :=
        if pr.2 then []
        else
          match pr.1 with
          | [] => []
          | h :: _ => [⟨h.key, h.pc, h.pn⟩]
      (pr.1, newts, false)

/-- Naive bucket scan over a rank's sorted active slice (outer loop lines
295-377): split off the maximal run of equal `Pc` from the front (what
`findRange` computes on the sorted slice), process it, continue. Fuel-indexed
by the slice length. -/
def naiveScanAux (rank p : Nat) (pm pe nm : Tup) :
    Nat → List Tup → List Tup × List Tup × Bool
  | 0, _ => ([], [], true)
  | _ + 1, [] => ([], [], true)
  | n + 1, x :: xs =>
    let bucket := (x :: xs).takeWhile (fun t => t.pc == x.pc)
    let rest := (x :: xs).dropWhile (fun t => t.pc == x.pc)
    let pb := naiveBucket rank p pm pe nm bucket
    let pr := naiveScanAux rank p pm pe nm n rest
    (pb.1 ++ pr.1, pb.2.1 ++ pr.2.1, pb.2.2 && pr.2.2)

/-- Naive bucket scan of one rank: updated slice, new flip tuples, `done` flag. -/
def naiveScan (rank p : Nat) (pm pe nm : Tup) (l : List Tup) :
    List Tup × List Tup × Bool :=
  naiveScanAux rank p pm pe nm l.length l

/-- Retirement bucket scan over a rank's sorted active slice (outer loop lines
561-669), same structure. -/
def inactScanAux (rank arank ap : Nat) (pm pe nm : Tup) :
    Nat → List Tup → List Tup × List Tup × Bool
  | 0, _ => ([], [], true)
  | _ + 1, [] => ([], [], true)
  | n + 1, x :: xs =>
    let bucket := (x :: xs).takeWhile (fun t => t.pc == x.pc)
    let rest := (x :: xs).dropWhile (fun t => t.pc == x.pc)
    let pb := inactBucket rank arank ap pm pe nm bucket
    let pr := inactScanAux rank arank ap pm pe nm n rest
    (pb.1 ++ pr.1, pb.2.1 ++ pr.2.1, pb.2.2 && pr.2.2)

/-- Retirement bucket scan of one rank. -/
def inactScan (rank arank ap : Nat) (pm pe nm : Tup) (l : List Tup) :
    List Tup × List Tup × Bool :=
  inactScanAux rank arank ap pm pe nm l.length l

/-- Per-rank results of one naive super-step (sort globally, re-split, compute
boundary values, scan each rank): for each rank the updated slice, its new flip
tuples and its `done` flag. -/
def naiveStepResults (st : List (List Tup)) : List (List Tup × List Tup × Bool) :=
  let sizes := st.map List.length
  let sorted := sortPcPn st.join
  let slices := splitSizes sizes sorted
  let p := slices.length
  let prevMins := exscanVals reduceLeftMin (slices.map lastMinOf)
  let prevEls := rightShiftVals (slices.map lastEltD)
  let nextMaxs := revExscanVals reduceRightMin (slices.map firstMaxOf)
  (List.range p).map (fun r =>
    naiveScan r p (prevMins.getD r zeroTup) (prevEls.getD r zeroTup)
      (nextMaxs.getD r zeroTup) (slices.getD r []))

/-- The per-rank `done` flags of one naive super-step. -/
def naiveStepDones (st : List (List Tup)) : List Bool :=
  (naiveStepResults st).map (fun pr => pr.2.2)

/-- One full naive super-step (`cluster_reads_par` loop body, lines 240-389):
scan, append the flip tuples at the end of each rank's vector, and vote
`keepGoing = !mxx::test_all(done)` (line 383). -/
def naiveGlobalStep (st : List (List Tup)) : List (List Tup) × Bool :=
  let results := naiveStepResults st
  (results.map (fun pr => pr.1 ++ pr.2.1), !((results.map (fun pr => pr.2.2)).all id))

/-- Iterate `k` naive super-steps (ignoring the vote). -/
def naiveIter : Nat → List (List Tup) → List (List Tup)
  | 0, st => st
  | k + 1, st => naiveIter k (naiveGlobalStep st).1

/-- The naive main loop with fuel: run super-steps while the vote says
`keepGoing`; `none` when the fuel runs out before the global done vote. -/
def naiveLoop : Nat → List (List Tup) → Option (List (List Tup))
  | 0, _ => none
  | n + 1, st =>
    let pr := naiveGlobalStep st
    if pr.2 then naiveLoop n pr.1 else some pr.1

/-- Append the freshly produced flip tuples at the end of the rank's vector and
swap the first `min(|newt|, |inact|)` of them with the tail of the inactive
suffix so the active region stays contiguous (lines 673-682). Returns the
spliced vector and the new `pend` (`active_size + nnew`). -/
def swapLoopAux (asz total : Nat) : Nat → List Tup → List Tup
  | 0, v => v
  | i + 1, v =>
    let v' := swapLoopAux asz total i v
    let a := asz + i
    let b := total - 1 - i
    let x := v'.getD a zeroTup
    let y := v'.getD b zeroTup
    (v'.set a y).set b x

/-- The append-and-splice of the retirement variant (lines 673-682). -/
def spliceNew (act inact newt : List Tup) : List Tup × Nat :=
  let v := act ++ inact ++ newt
  let nswap := Nat.min newt.length inact.length
  (swapLoopAux act.length v.length nswap v, act.length + newt.length)

/-- The bidirectional-iterator `std::partition` of libstdc++ (called at line
685): scan from the front past elements satisfying the predicate, from the back
past elements failing it, swap the two stopped elements, repeat on the strictly
shrinking middle. Returns the front part (all satisfying) and the back part
(all failing); the partitioned sequence is their concatenation and the returned
iterator is the length of the front part. Fuel-indexed; the list length always
suffices. -/
def bidirPartAux (pred : Tup → Bool) : Nat → List Tup → List Tup × List Tup
  | 0, l => (l, [])
  | n + 1, l =>
    let tr := l.takeWhile pred
    match l.dropWhile pred with
    | [] => (tr, [])
    | x :: rest =>
      let rrev := rest.reverse
      let bk := rrev.takeWhile (fun t => !pred t)
      match rrev.dropWhile (fun t => !pred t) with
      | [] => (tr, x :: bk.reverse)
      | y :: mrev =>
        let pr := bidirPartAux pred n mrev.reverse
        (tr ++ y :: pr.1, pr.2 ++ x :: bk.reverse)

/-- `std::partition` over a list. -/
def bidirPart (pred : Tup → Bool) (l : List Tup) : List Tup × List Tup :=
  bidirPartAux pred l.length l

/-- Step 4 of the retirement variant (lines 673-686): append the new tuples,
splice them into the active region, then `std::partition` the active region
`[begin, pend)` moving every tuple with `Pn == INACTIVE` behind the new `pend`. -/
def step4 (act inact newt : List Tup) : List Tup × Nat :=
  let pr := spliceNew act inact newt
  let fb := bidirPart (fun t => t.pn != MAXU) (pr.1.take pr.2)
  (fb.1 ++ fb.2 ++ pr.1.drop pr.2, fb.1.length)

/-- Per-rank results of one retirement super-step scan phase: sort the active
regions globally, re-split, form the subgroup of ranks with non-empty active
regions (lines 518-523), compute the boundary values inside that subgroup
(lines 525-554), and scan each non-empty rank. An empty rank contributes an
unchanged empty slice with `done = true`. -/
def inactStepResults (st : List (List Tup × Nat)) :
    List (List Tup × List Tup × Bool) :=
  let acts := st.map (fun vp => vp.1.take vp.2)
  let sizes := acts.map List.length
  let sorted := sortPcPn acts.join
  let slices := splitSizes sizes sorted
  let p := st.length
  let neIdx := (List.range p).filter (fun r => sizes.getD r 0 != 0)
  let ap := neIdx.length
  let neSlices := neIdx.map (fun r => slices.getD r [])
  let prevMins := exscanVals reduceLeftMin (neSlices.map lastMinOf)
  let prevEls := rightShiftVals (neSlices.map lastEltD)
  let nextMaxs := revExscanVals reduceRightMin (neSlices.map firstMaxOf)
  (List.range p).map (fun r =>
    if sizes.getD r 0 == 0 then ([], [], true)
    else
      let ar := neIdx.indexOf r
      inactScan r ar ap (prevMins.getD ar zeroTup) (prevEls.getD ar zeroTup)
        (nextMaxs.getD ar zeroTup) (slices.getD r []))

/-- The per-rank `done` flags of one retirement super-step. -/
def inactStepDones (st : List (List Tup × Nat)) : List Bool :=
  (inactStepResults st).map (fun pr => pr.2.2)

/-- Modelled from the spec: `mxx::block_decompose_partitions` (line 690) is part
of the external collective layer; per specification section 4.2
(`BlockDecomposePartition`) it redistributes the active prefixes across ranks
into equal-sized blocks, leaving the inactive suffixes in place, and returns the
new `pend` of each rank. -/
def blockDecomposeParts (post : List (List Tup × Nat)) : List (List Tup × Nat) :=
  let p := post.length
  let allact := (post.map (fun vp => vp.1.take vp.2)).join
  let bs := blockSizes allact.length p
  let sl := splitSizes bs allact
  (List.range p).map (fun r =>
    ((sl.getD r []) ++ ((post.getD r ([], 0)).1.drop (post.getD r ([], 0)).2),
      bs.getD r 0))

/-- One full retirement super-step (`cluster_reads_par_inactive` loop body,
lines 490-699): scan, splice, partition, optional load-balancing
redistribution, and the vote `keepGoing = !mxx::test_all(done)` (line 693). -/
def inactGlobalStep (lb : Bool) (st : List (List Tup × Nat)) :
    List (List Tup × Nat) × Bool :=
  let results := inactStepResults st
  let inacts := st.map (fun vp => vp.1.drop vp.2)
  let post := (List.range st.length).map (fun r =>
    let pr := results.getD r ([], [], true)
    step4 pr.1 (inacts.getD r []) pr.2.1)
  let newSt := if lb then blockDecomposeParts post else post
  (newSt, !((results.map (fun pr => pr.2.2)).all id))

/-- Iterate `k` retirement super-steps. -/
def inactIter (lb : Bool) : Nat → List (List Tup × Nat) → List (List Tup × Nat)
  | 0, st => st
  | k + 1, st => inactIter lb k (inactGlobalStep lb st).1

/-- The retirement main loop with fuel. -/
def inactLoop (lb : Bool) : Nat → List (List Tup × Nat) → Option (List (List Tup × Nat))
  | 0, _ => none
  | n + 1, st =>
    let pr := inactGlobalStep lb st
    if pr.2 then inactLoop lb n pr.1 else some pr.1

/-- Keep each tuple whose `Pc` strictly exceeds the previously kept one; the
local per-rank seed extraction of `get_partition_seeds` (lines 106-116). -/
def luAux : Tup → List Tup → List Tup
  | _, [] => []
  | prev, t :: r => if prev.pc < t.pc then t :: luAux t r else luAux prev r

/-- Local unique: the first tuple plus every tuple strictly increasing in `Pc`. -/
def localUnique : List Tup → List Tup
  | [] => []
  | x :: xs => x :: luAux x xs

/-- The `std::lower_bound` call of `get_partition_seeds` (lines 136-138),
binary-searched with the comparator `pc(x) == pc(y)` exactly as libstdc++
executes it (which is why its result is faithful to the source, not to the
usual lower-bound contract: the comparator is not an ordering). Fuel-indexed by
the range length, which strictly decreases every step. -/
def lbEqAux (pcv : Nat) (s : List Tup) : Nat → Nat → Nat → Nat
  | 0, first, _ => first
  | fuel + 1, first, len =>
    if len == 0 then first
    else
      let half := len / 2
      if (s.getD (first + half) zeroTup).pc == pcv then
        lbEqAux pcv s fuel (first + half + 1) (len - half - 1)
      else lbEqAux pcv s fuel first half

/-- `std::lower_bound(seeds, splitter, equality-comparator)` over a whole list. -/
def lbEq (s : List Tup) (val : Tup) : Nat := lbEqAux val.pc s s.length 0 s.length

/-- Cut the local seeds into the consecutive send segments of the all-to-all
(lines 129-144): for each splitter, the segment up to the search result; the
remainder is the last segment. The segments concatenate back to the seeds list
by construction, matching `b = e` advancing through the vector. -/
def mkSegs (s : List Tup) : List Tup → List (List Tup)
  | [] => [s]
  | sp :: rest =>
    let e := lbEq s sp
    s.take e :: mkSegs (s.drop e) rest

/-- Pad a segment list with empty segments up to `p` entries (ranks beyond the
last splitter receive a zero send count, line 129). -/
def padTo (p : Nat) (l : List (List Tup)) : List (List Tup) :=
  l ++ List.replicate (p - l.length) []

/-- The `Pn := Pc` overwrite of `get_partition_seeds` (lines 84-86), applied to
every tuple of every rank's whole vector — active and inactive parts alike. -/
def pnOverwrite (st : List (List Tup)) : List (List Tup) :=
  st.map (fun v => v.map (fun t => (⟨t.key, t.pc, t.pc⟩ : Tup)))

/-- The per-rank slice sizes of the seed-extraction redistribution
(`mxx::block_decompose`, line 90). -/
def gpsSizes (st : List (List Tup)) : List Nat :=
  blockSizes (pnOverwrite st).join.length st.length

/-- The globally `Pc`-sorted tuple sequence of `get_partition_seeds`
(lines 92-95, applied after the block decomposition). -/
def gpsSorted (st : List (List Tup)) : List Tup :=
  sortPc (splitSizes (gpsSizes st) (pnOverwrite st).join).join

/-- The redistributed, sorted buffer the caller's vector holds after
`get_partition_seeds` returns (the vector is passed by reference). -/
def gpsBuffer (st : List (List Tup)) : List (List Tup) :=
  splitSizes (gpsSizes st) (gpsSorted st)

/-- The per-rank local seeds: local unique over each sorted slice
(lines 104-116). -/
def gpsSeeds (st : List (List Tup)) : List (List Tup) :=
  (gpsBuffer st).map localUnique

/-- The allgathered splitters: the first local seed of every non-zero rank that
has seeds (lines 122-126). -/
def gpsSplitters (st : List (List Tup)) : List Tup :=
  ((List.range st.length).map (fun r =>
    if r > 0 && !((gpsSeeds st).getD r []).isEmpty then
      [((gpsSeeds st).getD r []).headD zeroTup]
    else [])).join

/-- Per-rank send segments of the all-to-all (lines 129-144). -/
def gpsSegs (st : List (List Tup)) : List (List (List Tup)) :=
  (gpsSeeds st).map (fun s => padTo st.length (mkSegs s (gpsSplitters st)))

/-- The all-to-all exchange (line 151): rank `j` receives segment `j` of every
rank, in rank order. -/
def gpsRecv (st : List (List Tup)) : List (List Tup) :=
  (List.range st.length).map (fun j => ((gpsSegs st).map (fun sg => sg.getD j [])).join)

/-- Re-sort and re-dedup the received seeds per rank (lines 154-161). -/
def gpsFinal (st : List (List Tup)) : List (List Tup) :=
  (gpsRecv st).map (fun rj => localUnique (sortPc rj))

/-- `get_partition_seeds` for `p > 1` (lines 77-169): set `Pn := Pc` on every
tuple of the whole vector, block-decompose, sort globally by `Pc`, take local
uniques, allgather one splitter per non-zero rank with seeds, cut into send
segments, all-to-all, re-sort and re-dedup locally. Returns the overwritten
buffer (the caller's vector is passed by reference and mutated) and the
per-rank final seed lists. -/
def getPartitionSeedsMulti (st : List (List Tup)) :
    List (List Tup) × List (List Tup) :=
  (gpsBuffer st, gpsFinal st)

/-- `get_partition_seeds` for `p = 1` (lines 96-100, 104-116): overwrite
`Pn := Pc`, sort by `Pc`, local unique; the splitter exchange is skipped. -/
def getPartitionSeedsOne (v : List Tup) : List Tup :=
  localUnique (sortPc (v.map (fun t => (⟨t.key, t.pc, t.pc⟩ : Tup))))

/-- The `Pc` values written to the seed file: seeds gathered to rank 0 in rank
order (`mxx::gather_vectors`, lines 402-405 / 711-715), one `Pc` per line. -/
def seedPcsOfState (st : List (List Tup)) : List Nat :=
  if st.length > 1 then (((getPartitionSeedsMulti st).2).join).map Tup.pc
  else
    match st with
    | [v] => (getPartitionSeedsOne v).map Tup.pc
    | _ => []

/-- Outcomes of a full engine run. -/
inductive RunError where
  | assertEmptyInput : RunError
  | fuelExhausted : RunError
deriving DecidableEq, Repr

/-- Full `cluster_reads_par` pipeline over per-rank edge lists: generate
(lines 205-209), `assert(localVector.size() > 0)` (line 213) before the k-mer
reduction, k-mer phase (lines 225-238), main loop, seed extraction and output.
Returns the seed file's `Pc` lines. -/
def clusterReadsPar (ranksEdges : List (List (Nat × Nat))) (fuel : Nat) :
    Except RunError (List Nat) :=
  let st0 := ranksEdges.map genTuples
  if st0.any List.isEmpty then .error .assertEmptyInput
  else
    let sizes := st0.map List.length
    let st1 := splitSizes sizes (kmerReduceGlobal st0.join)
    match naiveLoop fuel st1 with
    | none => .error .fuelExhausted
    | some st2 => .ok (seedPcsOfState st2)

/-- Full `cluster_reads_par_inactive` pipeline (`load_balance` selects the
`loadbalance` variant): generate, `assert(localVector.size() > 0)` (line 466)
before the k-mer reduction, k-mer phase, main loop over `(vector, pend)` pairs,
seed extraction over the whole vectors (active and inactive parts alike). -/
def clusterReadsParInactive (lb : Bool) (ranksEdges : List (List (Nat × Nat)))
    (fuel : Nat) : Except RunError (List Nat) :=
  let st0 := ranksEdges.map genTuples
  if st0.any List.isEmpty then .error .assertEmptyInput
  else
    let sizes := st0.map List.length
    let st1 := (splitSizes sizes (kmerReduceGlobal st0.join)).map (fun v => (v, v.length))
    match inactLoop lb fuel st1 with
    | none => .error .fuelExhausted
    | some st2 => .ok (seedPcsOfState (st2.map (fun vp => vp.1)))

/-- Decompose a (sorted) slice into its maximal runs of equal `Pc` — the
buckets the per-rank scans walk. Fuel-indexed by the length. -/
def bucketsOfAux : Nat → List Tup → List (List Tup)
  | 0, _ => []
  | _ + 1, [] => []
  | n + 1, x :: xs =>
    ((x :: xs).takeWhile (fun t => t.pc == x.pc)) ::
      bucketsOfAux n ((x :: xs).dropWhile (fun t => t.pc == x.pc))

/-- The buckets of a slice. -/
def bucketsOf (l : List Tup) : List (List Tup) := bucketsOfAux l.length l

/-- A bucket that the naive scan processes through the non-singleton,
non-converged case (the only case that clears the rank's `done` flag): it is
neither removed by the singleton rule nor does its smallest `Pn` (with boundary
override) equal its largest. -/
def isCaseCNaive (rank p : Nat) (pm pe nm : Tup) : List Tup → Bool
  | [] => false
  | b0 :: rest =>
    !(rest.isEmpty && (rank == 0 || (rank > 0 && b0.pc != pe.pc))) &&
      bucketMinPn rank pm b0 != bucketMaxPn rank p nm b0 ((b0 :: rest).getLastD zeroTup)

/-- Same characterization for the retirement scan (subgroup rank `arank` of
`ap` non-empty ranks governs the guards). -/
def isCaseCInact (arank ap : Nat) (pm pe nm : Tup) : List Tup → Bool
  | [] => false
  | b0 :: rest =>
    !(rest.isEmpty && (arank == 0 || (arank > 0 && b0.pc != pe.pc))) &&
      bucketMinPn arank pm b0 != bucketMaxPn arank ap nm b0 ((b0 :: rest).getLastD zeroTup)

/-- C1: the claim states that for every input edge multiset, rank count and
seeds, the `standard`, `inactive` and `loadbalance` variants write the same set
of component representatives. The code violates this: on the two-rank input
with edges `[(1,1),(2,1),(2,3)]` on rank 0 and `[(0,3),(3,2),(3,0)]` on rank 1,
the standard variant writes the seed set `{0, 1}` while both retirement
variants write `{0, 1, 3}` — the flip tuple carrying the `3 → 1` merge is
removed by the local singleton rule at a rank boundary while the retirement
variant floors the propagated minimum to the bucket's `Pc` (lines 617-618) and
then retires the bucket, so label `3` never merges into `1`. This theorem
evaluates all three embedded pipelines at that input. -/
theorem C1_variant_divergence :
    clusterReadsPar [[(1,1), (2,1), (2,3)], [(0,3), (3,2), (3,0)]] 10 =
      .ok [0, 1]
    ∧ clusterReadsParInactive false [[(1,1), (2,1), (2,3)], [(0,3), (3,2), (3,0)]] 10 =
      .ok [0, 1, 3]
    ∧ clusterReadsParInactive true [[(1,1), (2,1), (2,3)], [(0,3), (3,2), (3,0)]] 10 =
      .ok [0, 1, 3]
    ∧ (3 : Nat) ∈ [0, 1, 3] ∧ (3 : Nat) ∉ [0, 1] := by
  exact ⟨rfl, rfl, rfl, by decide, by decide⟩

/-- C3: the claim states that no step of the bucket scan ever replaces a
tuple's `Pc` with a strictly larger value. Counterexample, reached from the
edge list `[(1,3),(3,1),(3,1),(3,3)]` on one rank: after the k-mer phase and
one super-step, the sorted state is
`[(3,1,1), (3,1,1), (1,3,1), (3,1,3)]`; in the next scan the edge rule rewrites
the tuple `(1,3,1)` at position 2 to `(1,1,3)` — its `Pc` grows from 1 to 3
(the scan updates elements in place, so positions in input and output
correspond). -/
theorem C3_counterexample :
    ((naiveScan 0 1 zeroTup zeroTup zeroTup
        (sortPcPn ((naiveIter 1 (splitSizes [4]
          (kmerReduceGlobal (genTuples [(1,3), (3,1), (3,1), (3,3)])))).getD 0 []))).1.getD
        2 zeroTup).pc >
      ((sortPcPn ((naiveIter 1 (splitSizes [4]
          (kmerReduceGlobal (genTuples [(1,3), (3,1), (3,1), (3,3)])))).getD 0 [])).getD
        2 zeroTup).pc := by decide

/-- C4: the claim states that Step 4 of the retirement variant stably
partitions `[begin, pend)`, the active tuples keeping their relative order.
Counterexample on a state reached from the single-rank run on edges
`[(6,6),(5,6),(6,4),(2,2),(3,2),(1,5),(6,5)]`: `std::partition` moves the
trailing active `(6,4,4)` forward across `(1,4,5)` and `(5,4,6)`, so the active
region after Step 4 differs from the stable order (the `filter` of the spliced
region). -/
theorem C4_counterexample :
    ((step4 [⟨2,4294967295,2⟩, ⟨3,4294967295,2⟩, ⟨6,4,4⟩, ⟨1,4,5⟩, ⟨5,4,6⟩, ⟨6,4,4⟩, ⟨6,4,4⟩]
        [] [⟨6,4,4⟩]).1.take
      (step4 [⟨2,4294967295,2⟩, ⟨3,4294967295,2⟩, ⟨6,4,4⟩, ⟨1,4,5⟩, ⟨5,4,6⟩, ⟨6,4,4⟩, ⟨6,4,4⟩]
        [] [⟨6,4,4⟩]).2) ≠
    ((spliceNew [⟨2,4294967295,2⟩, ⟨3,4294967295,2⟩, ⟨6,4,4⟩, ⟨1,4,5⟩, ⟨5,4,6⟩, ⟨6,4,4⟩, ⟨6,4,4⟩]
        [] [⟨6,4,4⟩]).1.take
      (spliceNew [⟨2,4294967295,2⟩, ⟨3,4294967295,2⟩, ⟨6,4,4⟩, ⟨1,4,5⟩, ⟨5,4,6⟩, ⟨6,4,4⟩, ⟨6,4,4⟩]
        [] [⟨6,4,4⟩]).2).filter (fun t => t.pn != MAXU) := by decide

/-- C6: the claim states that every read of `prev_min`, `prev_el`, `next_max`
is guarded by a rank check within the non-empty subgroup, so the unspecified
boundary identity is never used in a bucket decision. Counterexample: with
world rank 1 but subgroup rank 0 of 2 (the case of a lower, empty world rank),
`prev_el` is the unspecified identity delivered to the first subgroup rank, yet
the guard at line 626 tests the world rank — two different values of `prev_el`
give different scan results on the same slice. -/
theorem C6_counterexample :
    inactScan 1 0 2 zeroTup ⟨0,0,5⟩ ⟨0,0,99⟩ [⟨10,1,5⟩, ⟨11,2,5⟩] ≠
      inactScan 1 0 2 zeroTup ⟨0,0,9⟩ ⟨0,0,99⟩ [⟨10,1,5⟩, ⟨11,2,5⟩] := by decide

/-- C7: the claim states that with more than one rank the exchanged, re-sorted
and re-deduplicated seeds contain exactly one tuple per distinct `Pc` of the
buffer. Counterexample with 3 ranks and `Pc` values
`1,2,3,4,7 | 7,8,9,10,11 | 12,13,14,15`: the `std::lower_bound` with the
equality comparator (lines 136-138) fails to find the splitter `7` inside rank
0's seeds, so rank 0's copy of `7` is routed to rank 2 while rank 1's copy goes
to rank 0; both survive the rank-local deduplication and `7` is collected
twice. -/
theorem C7_counterexample :
    (((getPartitionSeedsMulti
        [[⟨100,0,1⟩, ⟨101,0,2⟩, ⟨102,0,3⟩, ⟨103,0,4⟩, ⟨104,0,7⟩],
         [⟨105,0,7⟩, ⟨106,0,8⟩, ⟨107,0,9⟩, ⟨108,0,10⟩, ⟨109,0,11⟩],
         [⟨110,0,12⟩, ⟨111,0,13⟩, ⟨112,0,14⟩, ⟨113,0,15⟩]]).2.join.map Tup.pc).count 7) =
      2 := by decide

/-- The default-or-last element of a non-empty list is a member. -/
theorem getLastD_mem (l : List Tup) (d : Tup) (h : l ≠ []) : l.getLastD d ∈ l := by
  cases l with
  | nil => exact absurd rfl h
  | cons x xs => exact List.getLast_mem _

/-- C9: before the flip and edge rules the retirement variant broadcasts
`min(bucket pc, minimum pn)` into the bucket — `effectiveMinPn` (lines 617-618)
equals `Nat.min` of the bucket's `Pc` and the propagated minimum — while the
naive variant's propagated minimum (`bucketMinPn`, lines 300-305) is always one
of the `Pn` projections (the first element's or `prev_min`'s) and never takes a
`Pc` value into the minimum. -/
theorem C9_min_pn_lowering : ∀ (rank arank : Nat) (pm b0 : Tup),
    effectiveMinPn arank pm b0 = Nat.min b0.pc (bucketMinPn arank pm b0)
    ∧ (bucketMinPn rank pm b0 = b0.pn ∨ bucketMinPn rank pm b0 = pm.pn) := by
  intro rank arank pm b0
  constructor
  · unfold effectiveMinPn
    dsimp only
    simp only [Nat.min_def]
    split <;> split <;> omega
  · unfold bucketMinPn
    split
    · exact Or.inr rfl
    · exact Or.inl rfl

/-- C8: each variant checks `assert(localVector.size() > 0)` right after input
generation and before the k-mer reduction (lines 213 and 466); the run aborts
exactly when some rank's generated tuple buffer is empty, and with non-empty
buffers on every rank the assertion never fires (the remaining pipeline can
only return a result or exhaust its fuel). -/
theorem C8_empty_assert : ∀ (re : List (List (Nat × Nat))) (fuel : Nat),
    (clusterReadsPar re fuel = .error .assertEmptyInput ↔ ∃ e ∈ re, genTuples e = [])
    ∧ (clusterReadsParInactive false re fuel = .error .assertEmptyInput ↔
        ∃ e ∈ re, genTuples e = [])
    ∧ (clusterReadsParInactive true re fuel = .error .assertEmptyInput ↔
        ∃ e ∈ re, genTuples e = []) := by
  intro re fuel
  have hany : ((re.map genTuples).any List.isEmpty = true) ↔ ∃ e ∈ re, genTuples e = [] := by
    rw [List.any_eq_true]
    constructor
    · rintro ⟨x, hx, hxe⟩
      rcases List.mem_map.mp hx with ⟨e, he, rfl⟩
      exact ⟨e, he, List.isEmpty_iff.mp hxe⟩
    · rintro ⟨e, he, hee⟩
      exact ⟨genTuples e, List.mem_map_of_mem _ he, List.isEmpty_iff.mpr hee⟩
  refine ⟨?_, ?_, ?_⟩
  · simp only [clusterReadsPar]
    by_cases h : ((re.map genTuples).any List.isEmpty) = true
    · rw [if_pos h]
      exact iff_of_true rfl (hany.mp h)
    · rw [if_neg h]
      refine iff_of_false ?_ (fun he => h (hany.mpr he))
      cases hl : naiveLoop fuel (splitSizes ((re.map genTuples).map List.length)
          (kmerReduceGlobal (re.map genTuples).join)) with
      | none => simp [hl]
      | some st2 => simp [hl]
  · simp only [clusterReadsParInactive]
    by_cases h : ((re.map genTuples).any List.isEmpty) = true
    · rw [if_pos h]
      exact iff_of_true rfl (hany.mp h)
    · rw [if_neg h]
      refine iff_of_false ?_ (fun he => h (hany.mpr he))
      cases hl : inactLoop false fuel ((splitSizes ((re.map genTuples).map List.length)
          (kmerReduceGlobal (re.map genTuples).join)).map (fun v => (v, v.length))) with
      | none => simp [hl]
      | some st2 => simp [hl]
  · simp only [clusterReadsParInactive]
    by_cases h : ((re.map genTuples).any List.isEmpty) = true
    · rw [if_pos h]
      exact iff_of_true rfl (hany.mp h)
    · rw [if_neg h]
      refine iff_of_false ?_ (fun he => h (hany.mpr he))
      cases hl : inactLoop true fuel ((splitSizes ((re.map genTuples).map List.length)
          (kmerReduceGlobal (re.map genTuples).join)).map (fun v => (v, v.length))) with
      | none => simp [hl]
      | some st2 => simp [hl]

/-- C2: in the retirement variant, a non-singleton bucket whose minimum `Pn`
equals its maximum `Pn` (formalized as: all its `Pn` fields equal a common `w`,
which for a bucket is equivalent) is processed by the converged rule
(lines 594-615): if `w` is `ALMOST_INACTIVE` every element's `Pn` becomes
`INACTIVE`; otherwise if the bucket's common `Pc` equals `w` every element's
`Pn` becomes `ALMOST_INACTIVE`; otherwise every element's `Pc` is set to its
`Pn`. No other field changes, no flip tuple is emitted, and the bucket does not
clear the `done` flag. The hypotheses on `prev_min`/`next_max` state that the
bucket does not extend across the rank boundary (otherwise the overridden
extremes apply, see `bucketMinPn`/`bucketMaxPn`). -/
theorem C2_converged_bucket (rank arank ap : Nat) (pm pe nm : Tup) (b0 : Tup)
    (rest : List Tup) (w : Nat)
    (hall : ∀ t ∈ b0 :: rest, t.pn = w)
    (hns : rest ≠ [])
    (hpm : 0 < arank → pm.pc ≠ b0.pc)
    (hnm : arank < ap - 1 → nm.pc ≠ b0.pc) :
    inactBucket rank arank ap pm pe nm (b0 :: rest) =
      (if w = MAXU - 1 then
        ((b0 :: rest).map fun t => (⟨t.key, MAXU, t.pc⟩ : Tup), [], true)
       else if b0.pc = w then
        ((b0 :: rest).map fun t => (⟨t.key, MAXU - 1, t.pc⟩ : Tup), [], true)
       else ((b0 :: rest).map fun t => (⟨t.key, t.pn, t.pn⟩ : Tup), [], true)) := by
  have hb0 : b0.pn = w := hall b0 (List.mem_cons_self _ _)
  have hlast : ((b0 :: rest).getLastD zeroTup).pn = w :=
    hall _ (getLastD_mem _ _ (by simp))
  have hmin : bucketMinPn arank pm b0 = w := by
    unfold bucketMinPn
    split
    · next h =>
      rcases Bool.and_eq_true_iff.mp h with ⟨h1, h2⟩
      exact absurd (beq_iff_eq.mp h2) (hpm (of_decide_eq_true h1))
    · exact hb0
  have hmax : bucketMaxPn arank ap nm b0 ((b0 :: rest).getLastD zeroTup) = w := by
    unfold bucketMaxPn
    split
    · next h =>
      rcases Bool.and_eq_true_iff.mp h with ⟨h1, h2⟩
      exact absurd (beq_iff_eq.mp h2) (hnm (of_decide_eq_true h1))
    · exact hlast
  have hre : rest.isEmpty = false := by
    cases rest with
    | nil => exact absurd rfl hns
    | cons y ys => rfl
  show inactBucket rank arank ap pm pe nm (b0 :: rest) = _
  unfold inactBucket
  simp only [hre, Bool.false_and, Bool.false_eq_true, if_false, hmin, hmax,
    beq_self_eq_true, if_true, if_pos]
  by_cases hw : w = MAXU - 1
  · simp only [hw, beq_self_eq_true, if_pos, if_true]
  · have hwb : (w == MAXU - 1) = false := beq_eq_false_iff_ne.mpr hw
    simp only [hwb, Bool.false_eq_true, if_false, hw]
    by_cases hpc : b0.pc = w
    · simp only [hpc, beq_self_eq_true, if_pos, if_true]
    · have hpcb : (b0.pc == w) = false := beq_eq_false_iff_ne.mpr hpc
      simp only [hpcb, Bool.false_eq_true, if_false, hpc]

/-- Witness for `C2_converged_bucket`: the self-consistent bucket
`[(1,7,7), (2,7,7)]` on a single subgroup rank is sent to the witness round,
all `Pn` set to `ALMOST_INACTIVE`. -/
theorem C2_converged_bucket_witness :
    (∀ t ∈ [(⟨1,7,7⟩ : Tup), ⟨2,7,7⟩], t.pn = 7) ∧
    inactBucket 0 0 1 zeroTup zeroTup zeroTup [⟨1,7,7⟩, ⟨2,7,7⟩] =
      ([⟨1, MAXU - 1, 7⟩, ⟨2, MAXU - 1, 7⟩], [], true) := by
  refine ⟨by decide, ?_⟩
  have h := C2_converged_bucket 0 0 1 zeroTup zeroTup zeroTup ⟨1,7,7⟩ [⟨2,7,7⟩] 7
    (by decide) (by decide) (fun hc => absurd hc (by decide))
    (fun hc => absurd hc (by decide))
  rw [h]
  decide

/-- Concatenating the slices recovers the prefix of the split sequence. -/
theorem splitSizes_join (sizes : List Nat) (l : List Tup) :
    (splitSizes sizes l).join = l.take sizes.sum := by
  induction sizes generalizing l with
  | nil => simp [splitSizes]
  | cons s ss ih =>
    simp [splitSizes, ih, List.sum_cons, List.take_add]

/-- Partial sums of the block decomposition sizes. -/
theorem blockSizes_sum_aux (n p k : Nat) :
    ((List.range k).map (fun i => n / p + if i < n % p then 1 else 0)).sum =
      k * (n / p) + min k (n % p) := by
  induction k with
  | zero => simp
  | succ k ih =>
    rw [List.range_succ, List.map_append, List.sum_append, ih]
    simp only [List.map_cons, List.map_nil, List.sum_cons, List.sum_nil]
    simp only [Nat.succ_mul, Nat.min_def]
    split_ifs <;> omega

/-- The block decomposition sizes sum to the element count (for `p > 0`). -/
theorem blockSizes_sum (n p : Nat) (hp : 0 < p) : (blockSizes n p).sum = n := by
  unfold blockSizes
  rw [blockSizes_sum_aux]
  have hm : n % p < p := Nat.mod_lt _ hp
  have hd := Nat.div_add_mod n p
  simp only [Nat.min_def]
  split_ifs <;> omega

/-- For a non-empty rank list, the block-decomposed split of the overwritten
buffer concatenates back to it. -/
theorem gpsInner_join (st : List (List Tup)) (h : st ≠ []) :
    (splitSizes (gpsSizes st) (pnOverwrite st).join).join = (pnOverwrite st).join := by
  rw [splitSizes_join]
  unfold gpsSizes
  rw [blockSizes_sum _ _ (List.length_pos.mpr h), List.take_length]

/-- The globally sorted seed-extraction sequence is a permutation of the
overwritten buffer. -/
theorem gpsSorted_perm (st : List (List Tup)) (h : st ≠ []) :
    List.Perm (gpsSorted st) (pnOverwrite st).join := by
  unfold gpsSorted
  rw [gpsInner_join st h]
  exact List.perm_insertionSort lePc _

/-- For a non-empty rank list, the post-call buffer concatenates to the sorted
sequence. -/
theorem gpsBuffer_join (st : List (List Tup)) (h : st ≠ []) :
    (gpsBuffer st).join = gpsSorted st := by
  unfold gpsBuffer
  rw [splitSizes_join]
  unfold gpsSizes
  rw [blockSizes_sum _ _ (List.length_pos.mpr h)]
  have hlen : (gpsSorted st).length = (pnOverwrite st).join.length :=
    ((gpsSorted_perm st h).length_eq)
  rw [← hlen, List.take_length]

/-- The overwritten buffer's concatenation is the map of the input's. -/
theorem pnOverwrite_join (st : List (List Tup)) :
    (pnOverwrite st).join = st.join.map (fun t => (⟨t.key, t.pc, t.pc⟩ : Tup)) := by
  unfold pnOverwrite
  exact (List.map_join _ st).symm

/-- C10: `get_partition_seeds` mutates the caller's tuple buffer: afterwards
every tuple (including the inactive suffix — the function runs over the whole
vector) has `Pn = Pc`, the buffer is globally re-sorted by `Pc` after a block
redecomposition, its multiset of `(key, Pc)` pairs is preserved, and the
pre-call contents are in general not preserved (third conjunct: a concrete
input whose buffer differs after the call). -/
theorem C10_seed_extraction_frame :
    (∀ st : List (List Tup),
      (∀ t ∈ ((getPartitionSeedsMulti st).1).join, t.pn = t.pc)
      ∧ List.Sorted lePc ((getPartitionSeedsMulti st).1).join
      ∧ List.Perm (((getPartitionSeedsMulti st).1).join.map (fun t => (t.key, t.pc)))
          (st.join.map (fun t => (t.key, t.pc))))
    ∧ (getPartitionSeedsMulti [[⟨1,5,9⟩, ⟨2,6,3⟩], [⟨3,7,1⟩]]).1 ≠
        [[⟨1,5,9⟩, ⟨2,6,3⟩], [⟨3,7,1⟩]] := by
  constructor
  · intro st
    have hb : (getPartitionSeedsMulti st).1 = gpsBuffer st := rfl
    rcases eq_or_ne st [] with rfl | hne
    · have hz : (getPartitionSeedsMulti ([] : List (List Tup))).1 = [] := rfl
      rw [hz]
      exact ⟨by simp, by simp, by simp⟩
    · rw [hb, gpsBuffer_join st hne]
      refine ⟨?_, ?_, ?_⟩
      · intro t ht
        have ht2 : t ∈ (pnOverwrite st).join := (gpsSorted_perm st hne).mem_iff.mp ht
        rw [pnOverwrite_join] at ht2
        rcases List.mem_map.mp ht2 with ⟨u, _, rfl⟩
        rfl
      · exact List.sorted_insertionSort lePc _
      · have h1 : List.Perm ((gpsSorted st).map (fun t => (t.key, t.pc)))
            (((pnOverwrite st).join).map (fun t => (t.key, t.pc))) :=
          (gpsSorted_perm st hne).map _
        have h2 : ((pnOverwrite st).join).map (fun t => (t.key, t.pc)) =
            st.join.map (fun t => (t.key, t.pc)) := by
          rw [pnOverwrite_join, List.map_map]
          rfl
        exact h2 ▸ h1
  · decide

/-- The remainder after splitting off the first bucket is shorter than the
slice's tail bound. -/
theorem bucketRest_length (x : Tup) (xs : List Tup) :
    ((x :: xs).dropWhile (fun t => t.pc == x.pc)).length ≤ xs.length := by
  rw [List.dropWhile_cons_of_pos (by simp)]
  exact (List.dropWhile_sublist _).length_le

/-- Any two sufficient fuels compute the same bucket decomposition. -/
theorem bucketsOfAux_congr : ∀ (n m : Nat) (l : List Tup), l.length ≤ n →
    l.length ≤ m → bucketsOfAux n l = bucketsOfAux m l := by
  intro n
  induction n with
  | zero =>
    intro m l h _
    have : l = [] := List.length_eq_zero.mp (Nat.le_zero.mp h)
    subst this
    cases m <;> rfl
  | succ n ih =>
    intro m l h hm
    cases l with
    | nil => cases m <;> rfl
    | cons x xs =>
      cases m with
      | zero => exact absurd hm (by simp)
      | succ m =>
        have hr := bucketRest_length x xs
        show _ :: bucketsOfAux n _ = _ :: bucketsOfAux m _
        rw [ih m _ (Nat.le_trans hr (Nat.le_of_succ_le_succ h))
          (Nat.le_trans hr (Nat.le_of_succ_le_succ hm))]

/-- Any sufficient fuel computes the bucket decomposition. -/
theorem bucketsOfAux_fuel (n : Nat) (l : List Tup) (h : l.length ≤ n) :
    bucketsOfAux n l = bucketsOf l :=
  bucketsOfAux_congr n l.length l h (Nat.le_refl _)

/-- The naive bucket's `done` contribution is the negation of the case-C
characterization. -/
theorem naiveBucket_done (rank p : Nat) (pm pe nm : Tup) (b : List Tup) :
    (naiveBucket rank p pm pe nm b).2.2 = !(isCaseCNaive rank p pm pe nm b) := by
  cases b with
  | nil => rfl
  | cons b0 rest =>
    simp only [naiveBucket, isCaseCNaive]
    by_cases h1 : (rest.isEmpty && (rank == 0 || (rank > 0 && b0.pc != pe.pc))) = true
    · rw [if_pos h1]
      simp only [h1, Bool.not_true, Bool.false_and, Bool.not_false]
    · rw [if_neg h1]
      rw [Bool.not_eq_true] at h1
      by_cases h2 : (bucketMinPn rank pm b0 ==
          bucketMaxPn rank p nm b0 ((b0 :: rest).getLastD zeroTup)) = true
      · rw [if_pos h2]
        simp only [h1, bne, h2, Bool.not_false, Bool.not_true, Bool.true_and,
          Bool.and_false]
      · rw [if_neg h2]
        rw [Bool.not_eq_true] at h2
        simp only [bne] at h1
        simp only [h1, h2, bne, Bool.not_false, Bool.true_and, Bool.not_true,
          Bool.and_self, Bool.not_not]

/-- The retirement bucket's `done` contribution is the negation of the case-C
characterization. -/
theorem inactBucket_done (rank arank ap : Nat) (pm pe nm : Tup) (b : List Tup) :
    (inactBucket rank arank ap pm pe nm b).2.2 = !(isCaseCInact arank ap pm pe nm b) := by
  cases b with
  | nil => rfl
  | cons b0 rest =>
    simp only [inactBucket, isCaseCInact]
    by_cases h1 : (rest.isEmpty && (arank == 0 || (arank > 0 && b0.pc != pe.pc))) = true
    · rw [if_pos h1]
      by_cases hb : (b0.pn == MAXU - 1) = true
      · rw [if_pos hb]
        simp only [h1, Bool.not_true, Bool.false_and, Bool.not_false]
      · rw [if_neg hb]
        simp only [h1, Bool.not_true, Bool.false_and, Bool.not_false]
    · rw [if_neg h1]
      rw [Bool.not_eq_true] at h1
      by_cases h2 : (bucketMinPn arank pm b0 ==
          bucketMaxPn arank ap nm b0 ((b0 :: rest).getLastD zeroTup)) = true
      · rw [if_pos h2]
        by_cases h3 : (bucketMaxPn arank ap nm b0 ((b0 :: rest).getLastD zeroTup) == MAXU - 1) = true
        · rw [if_pos h3]
          simp only [h1, bne, h2, Bool.not_false, Bool.not_true, Bool.true_and,
            Bool.and_false]
        · rw [if_neg h3]
          by_cases h4 : (b0.pc == bucketMaxPn arank ap nm b0 ((b0 :: rest).getLastD zeroTup)) = true
          · rw [if_pos h4]
            simp only [h1, bne, h2, Bool.not_false, Bool.not_true, Bool.true_and,
              Bool.and_false]
          · rw [if_neg h4]
            simp only [h1, bne, h2, Bool.not_false, Bool.not_true, Bool.true_and,
              Bool.and_false]
      · rw [if_neg h2]
        rw [Bool.not_eq_true] at h2
        simp only [bne] at h1
        simp only [h1, h2, bne, Bool.not_false, Bool.true_and, Bool.not_true,
          Bool.and_self, Bool.not_not]

/-- The bucket decomposition unfolds bucket by bucket. -/
theorem bucketsOf_cons (x : Tup) (xs : List Tup) :
    bucketsOf (x :: xs) = ((x :: xs).takeWhile (fun t => t.pc == x.pc)) ::
      bucketsOf ((x :: xs).dropWhile (fun t => t.pc == x.pc)) := by
  show bucketsOfAux (xs.length + 1) (x :: xs) = _
  show _ :: bucketsOfAux xs.length _ = _
  rw [bucketsOfAux_fuel _ _ (bucketRest_length x xs)]

/-- The naive scan's `done` flag is set exactly when no bucket of the slice is
a case-C (non-singleton, non-converged) bucket. -/
theorem naiveScanAux_done (rank p : Nat) (pm pe nm : Tup) :
    ∀ (n : Nat) (l : List Tup), l.length ≤ n →
      (naiveScanAux rank p pm pe nm n l).2.2 =
        !((bucketsOf l).any (isCaseCNaive rank p pm pe nm)) := by
  intro n
  induction n with
  | zero =>
    intro l h
    have : l = [] := List.length_eq_zero.mp (Nat.le_zero.mp h)
    subst this
    rfl
  | succ n ih =>
    intro l h
    cases l with
    | nil => rfl
    | cons x xs =>
      have hr := bucketRest_length x xs
      have hstep : (naiveScanAux rank p pm pe nm (n + 1) (x :: xs)).2.2 =
          ((naiveBucket rank p pm pe nm ((x :: xs).takeWhile (fun t => t.pc == x.pc))).2.2 &&
            (naiveScanAux rank p pm pe nm n ((x :: xs).dropWhile (fun t => t.pc == x.pc))).2.2) :=
        rfl
      rw [hstep, naiveBucket_done, ih _ (Nat.le_trans hr (Nat.le_of_succ_le_succ h)),
        bucketsOf_cons]
      rw [List.any_cons, Bool.not_or]

/-- The retirement scan's `done` flag, same characterization. -/
theorem inactScanAux_done (rank arank ap : Nat) (pm pe nm : Tup) :
    ∀ (n : Nat) (l : List Tup), l.length ≤ n →
      (inactScanAux rank arank ap pm pe nm n l).2.2 =
        !((bucketsOf l).any (isCaseCInact arank ap pm pe nm)) := by
  intro n
  induction n with
  | zero =>
    intro l h
    have : l = [] := List.length_eq_zero.mp (Nat.le_zero.mp h)
    subst this
    rfl
  | succ n ih =>
    intro l h
    cases l with
    | nil => rfl
    | cons x xs =>
      have hr := bucketRest_length x xs
      have hstep : (inactScanAux rank arank ap pm pe nm (n + 1) (x :: xs)).2.2 =
          ((inactBucket rank arank ap pm pe nm ((x :: xs).takeWhile (fun t => t.pc == x.pc))).2.2 &&
            (inactScanAux rank arank ap pm pe nm n ((x :: xs).dropWhile (fun t => t.pc == x.pc))).2.2) :=
        rfl
      rw [hstep, inactBucket_done, ih _ (Nat.le_trans hr (Nat.le_of_succ_le_succ h)),
        bucketsOf_cons]
      rw [List.any_cons, Bool.not_or]

/-- The naive main loop returns within its fuel exactly when some super-step's
global vote comes back all-done. -/
theorem naiveLoop_isSome : ∀ (fuel : Nat) (st : List (List Tup)),
    (naiveLoop fuel st).isSome = true ↔
      ∃ k, k < fuel ∧ (naiveGlobalStep (naiveIter k st)).2 = false := by
  intro fuel
  induction fuel with
  | zero => intro st; simp [naiveLoop]
  | succ n ih =>
    intro st
    show (if (naiveGlobalStep st).2 = true then naiveLoop n (naiveGlobalStep st).1
      else some (naiveGlobalStep st).1).isSome = true ↔ _
    by_cases hv : (naiveGlobalStep st).2 = true
    · rw [if_pos hv, ih]
      constructor
      · rintro ⟨k, hk, hf⟩
        exact ⟨k + 1, Nat.succ_lt_succ hk, hf⟩
      · rintro ⟨k, hk, hf⟩
        cases k with
        | zero => exact absurd hf (by simp [naiveIter, hv])
        | succ k => exact ⟨k, Nat.lt_of_succ_lt_succ hk, hf⟩
    · rw [if_neg hv]
      have hf : (naiveGlobalStep st).2 = false := by
        cases h2 : (naiveGlobalStep st).2 with
        | false => rfl
        | true => exact absurd h2 hv
      exact iff_of_true rfl ⟨0, Nat.succ_pos n, hf⟩

/-- The retirement main loop, same characterization. -/
theorem inactLoop_isSome : ∀ (lb : Bool) (fuel : Nat) (st : List (List Tup × Nat)),
    (inactLoop lb fuel st).isSome = true ↔
      ∃ k, k < fuel ∧ (inactGlobalStep lb (inactIter lb k st)).2 = false := by
  intro lb fuel
  induction fuel with
  | zero => intro st; simp [inactLoop]
  | succ n ih =>
    intro st
    show (if (inactGlobalStep lb st).2 = true then inactLoop lb n (inactGlobalStep lb st).1
      else some (inactGlobalStep lb st).1).isSome = true ↔ _
    by_cases hv : (inactGlobalStep lb st).2 = true
    · rw [if_pos hv, ih]
      constructor
      · rintro ⟨k, hk, hf⟩
        exact ⟨k + 1, Nat.succ_lt_succ hk, hf⟩
      · rintro ⟨k, hk, hf⟩
        cases k with
        | zero => exact absurd hf (by simp [inactIter, hv])
        | succ k => exact ⟨k, Nat.lt_of_succ_lt_succ hk, hf⟩
    · rw [if_neg hv]
      have hf : (inactGlobalStep lb st).2 = false := by
        cases h2 : (inactGlobalStep lb st).2 with
        | false => rfl
        | true => exact absurd h2 hv
      exact iff_of_true rfl ⟨0, Nat.succ_pos n, hf⟩

/-- C5: in every variant, a rank's `done` flag is false exactly when its scan
processed at least one non-singleton, non-converged (case-C) bucket; each
super-step ends with the vote `keepGoing = !TestAll(done)` over all ranks'
flags (lines 383 and 693); and the fuelled main loop returns (exits cleanly)
precisely when some super-step's vote comes back all-done — no exit happens in
a super-step in which any rank voted not-done. The first two conjuncts give the
per-rank characterization for the naive and retirement scans, the middle two
the vote, the last two the loop, for `standard`, `inactive` (`lb = false`) and
`loadbalance` (`lb = true`). -/
theorem C5_termination_vote :
    (∀ (rank p : Nat) (pm pe nm : Tup) (l : List Tup),
      (naiveScan rank p pm pe nm l).2.2 =
        !((bucketsOf l).any (isCaseCNaive rank p pm pe nm)))
    ∧ (∀ (rank arank ap : Nat) (pm pe nm : Tup) (l : List Tup),
      (inactScan rank arank ap pm pe nm l).2.2 =
        !((bucketsOf l).any (isCaseCInact arank ap pm pe nm)))
    ∧ (∀ st : List (List Tup),
      ((naiveGlobalStep st).2 = false ↔ (naiveStepDones st).all id = true))
    ∧ (∀ (lb : Bool) (st : List (List Tup × Nat)),
      ((inactGlobalStep lb st).2 = false ↔ (inactStepDones st).all id = true))
    ∧ (∀ (fuel : Nat) (st : List (List Tup)),
      ((naiveLoop fuel st).isSome = true ↔
        ∃ k, k < fuel ∧ (naiveGlobalStep (naiveIter k st)).2 = false))
    ∧ (∀ (lb : Bool) (fuel : Nat) (st : List (List Tup × Nat)),
      ((inactLoop lb fuel st).isSome = true ↔
        ∃ k, k < fuel ∧ (inactGlobalStep lb (inactIter lb k st)).2 = false)) := by
  refine ⟨?_, ?_, ?_, ?_, ?_, ?_⟩
  · intro rank p pm pe nm l
    exact naiveScanAux_done rank p pm pe nm l.length l (Nat.le_refl _)
  · intro rank arank ap pm pe nm l
    exact inactScanAux_done rank arank ap pm pe nm l.length l (Nat.le_refl _)
  · intro st
    show (!((naiveStepDones st).all id)) = false ↔ (naiveStepDones st).all id = true
    cases h : (naiveStepDones st).all id <;> simp [h]
  · intro lb st
    show (!((inactStepDones st).all id)) = false ↔ (inactStepDones st).all id = true
    cases h : (inactStepDones st).all id <;> simp [h]
  · exact naiveLoop_isSome
  · exact inactLoop_isSome

/-- On the first subgroup rank the propagated bucket minimum ignores
`prev_min`. -/
theorem bucketMinPn_zero (pm b0 : Tup) : bucketMinPn 0 pm b0 = b0.pn := by
  unfold bucketMinPn
  simp

/-- On the last subgroup rank the propagated bucket maximum ignores
`next_max`. -/
theorem bucketMaxPn_last (arank ap : Nat) (h : ap - 1 ≤ arank) (nm b0 lastT : Tup) :
    bucketMaxPn arank ap nm b0 lastT = lastT.pn := by
  unfold bucketMaxPn
  rw [if_neg]
  simp [Nat.not_lt.mpr h]

/-- A bucket processed on the first subgroup rank does not depend on
`prev_min`. -/
theorem inactBucket_pm_indep (rank ap : Nat) (pm pm' pe nm : Tup) (b : List Tup) :
    inactBucket rank 0 ap pm pe nm b = inactBucket rank 0 ap pm' pe nm b := by
  cases b with
  | nil => rfl
  | cons b0 rest =>
    have he : effectiveMinPn 0 pm b0 = effectiveMinPn 0 pm' b0 := by
      unfold effectiveMinPn
      rw [bucketMinPn_zero, bucketMinPn_zero]
    simp only [inactBucket, bucketMinPn_zero, he]

/-- A bucket processed on the last subgroup rank does not depend on
`next_max`. -/
theorem inactBucket_nm_indep (rank arank ap : Nat) (h : ap - 1 ≤ arank)
    (pm pe nm nm' : Tup) (b : List Tup) :
    inactBucket rank arank ap pm pe nm b = inactBucket rank arank ap pm pe nm' b := by
  cases b with
  | nil => rfl
  | cons b0 rest =>
    simp only [inactBucket, bucketMaxPn_last arank ap h]

/-- A bucket processed on world rank 0 (necessarily the first subgroup rank)
does not depend on `prev_el`. -/
theorem inactBucket_pe_indep (ap : Nat) (pm pe pe' nm : Tup) (b : List Tup) :
    inactBucket 0 0 ap pm pe nm b = inactBucket 0 0 ap pm pe' nm b := by
  cases b with
  | nil => rfl
  | cons b0 rest =>
    simp only [inactBucket, beq_self_eq_true, Bool.true_or, Bool.and_true, if_true]

/-- Scan-level independence of `prev_min` on the first subgroup rank. -/
theorem inactScanAux_pm_indep (rank ap : Nat) (pm pm' pe nm : Tup) :
    ∀ (n : Nat) (l : List Tup),
      inactScanAux rank 0 ap pm pe nm n l = inactScanAux rank 0 ap pm' pe nm n l := by
  intro n
  induction n with
  | zero => intro l; rfl
  | succ n ih =>
    intro l
    cases l with
    | nil => rfl
    | cons x xs =>
      show (let pb := inactBucket rank 0 ap pm pe nm _
            let pr := inactScanAux rank 0 ap pm pe nm n _
            (pb.1 ++ pr.1, pb.2.1 ++ pr.2.1, pb.2.2 && pr.2.2)) = _
      rw [inactBucket_pm_indep rank ap pm pm', ih]
      rfl

/-- Scan-level independence of `next_max` on the last subgroup rank. -/
theorem inactScanAux_nm_indep (rank arank ap : Nat) (h : ap - 1 ≤ arank)
    (pm pe nm nm' : Tup) :
    ∀ (n : Nat) (l : List Tup),
      inactScanAux rank arank ap pm pe nm n l = inactScanAux rank arank ap pm pe nm' n l := by
  intro n
  induction n with
  | zero => intro l; rfl
  | succ n ih =>
    intro l
    cases l with
    | nil => rfl
    | cons x xs =>
      show (let pb := inactBucket rank arank ap pm pe nm _
            let pr := inactScanAux rank arank ap pm pe nm n _
            (pb.1 ++ pr.1, pb.2.1 ++ pr.2.1, pb.2.2 && pr.2.2)) = _
      rw [inactBucket_nm_indep rank arank ap h pm pe nm nm', ih]
      rfl

/-- Scan-level independence of `prev_el` on world rank 0. -/
theorem inactScanAux_pe_indep (ap : Nat) (pm pe pe' nm : Tup) :
    ∀ (n : Nat) (l : List Tup),
      inactScanAux 0 0 ap pm pe nm n l = inactScanAux 0 0 ap pm pe' nm n l := by
  intro n
  induction n with
  | zero => intro l; rfl
  | succ n ih =>
    intro l
    cases l with
    | nil => rfl
    | cons x xs =>
      show (let pb := inactBucket 0 0 ap pm pe nm _
            let pr := inactScanAux 0 0 ap pm pe nm n _
            (pb.1 ++ pr.1, pb.2.1 ++ pr.2.1, pb.2.2 && pr.2.2)) = _
      rw [inactBucket_pe_indep ap pm pe pe', ih]
      rfl

/-- C6 (amended): the `prev_min` and `next_max` boundary values are guarded by
subgroup-rank checks — on the first subgroup rank the scan's result does not
depend on `prev_min`, on the last it does not depend on `next_max` — and the
`prev_el` value is unused on world rank 0; but the duplicate-rule guard for
`prev_el` (line 626) tests the world rank rather than the subgroup rank, so on
a rank whose world rank is positive while it is first in the subgroup the
unspecified `prev_el` can influence the bucket decision (see the
counterexample). -/
theorem C6_boundary_guards :
    (∀ (rank ap : Nat) (pm pm' pe nm : Tup) (l : List Tup),
      inactScan rank 0 ap pm pe nm l = inactScan rank 0 ap pm' pe nm l)
    ∧ (∀ (rank arank ap : Nat), ap - 1 ≤ arank →
      ∀ (pm pe nm nm' : Tup) (l : List Tup),
        inactScan rank arank ap pm pe nm l = inactScan rank arank ap pm pe nm' l)
    ∧ (∀ (ap : Nat) (pm pe pe' nm : Tup) (l : List Tup),
      inactScan 0 0 ap pm pe nm l = inactScan 0 0 ap pm pe' nm l) := by
  refine ⟨?_, ?_, ?_⟩
  · intro rank ap pm pm' pe nm l
    exact inactScanAux_pm_indep rank ap pm pm' pe nm l.length l
  · intro rank arank ap h pm pe nm nm' l
    exact inactScanAux_nm_indep rank arank ap h pm pe nm nm' l.length l
  · intro ap pm pe pe' nm l
    exact inactScanAux_pe_indep ap pm pe pe' nm l.length l

/-- Witness for `C6_boundary_guards`: concrete instantiations of all three
guarded-independence conjuncts, with the ordering hypothesis of the second
discharged at `arank = 1`, `ap = 2`. -/
theorem C6_boundary_guards_witness :
    inactScan 3 0 2 ⟨9,9,9⟩ ⟨0,0,7⟩ ⟨1,2,3⟩ [⟨4,5,6⟩] =
      inactScan 3 0 2 ⟨8,8,8⟩ ⟨0,0,7⟩ ⟨1,2,3⟩ [⟨4,5,6⟩]
    ∧ (2 - 1 ≤ 1 ∧ inactScan 1 1 2 ⟨9,9,9⟩ ⟨0,0,7⟩ ⟨1,2,3⟩ [⟨4,5,6⟩] =
      inactScan 1 1 2 ⟨9,9,9⟩ ⟨0,0,7⟩ ⟨5,5,5⟩ [⟨4,5,6⟩])
    ∧ inactScan 0 0 2 ⟨9,9,9⟩ ⟨0,0,7⟩ ⟨1,2,3⟩ [⟨4,5,6⟩] =
      inactScan 0 0 2 ⟨9,9,9⟩ ⟨2,2,2⟩ ⟨1,2,3⟩ [⟨4,5,6⟩] :=
  ⟨C6_boundary_guards.1 3 2 ⟨9,9,9⟩ ⟨8,8,8⟩ ⟨0,0,7⟩ ⟨1,2,3⟩ [⟨4,5,6⟩],
   ⟨by decide, C6_boundary_guards.2.1 1 1 2 (by decide) ⟨9,9,9⟩ ⟨0,0,7⟩ ⟨1,2,3⟩ ⟨5,5,5⟩ [⟨4,5,6⟩]⟩,
   C6_boundary_guards.2.2 2 ⟨9,9,9⟩ ⟨0,0,7⟩ ⟨2,2,2⟩ ⟨1,2,3⟩ [⟨4,5,6⟩]⟩

/-- The head of a non-trivial `dropWhile` result fails the predicate. -/
theorem dropWhile_head_false (p : Tup → Bool) :
    ∀ (l : List Tup) (x : Tup) (rest : List Tup), l.dropWhile p = x :: rest →
      p x = false := by
  intro l
  induction l with
  | nil => intro x rest h; exact absurd h (by simp)
  | cons y ys ih =>
    intro x rest h
    by_cases hy : p y = true
    · rw [List.dropWhile_cons_of_pos hy] at h
      exact ih x rest h
    · rw [List.dropWhile_cons_of_neg hy] at h
      cases h
      exact eq_false_of_ne_true hy

/-- Correctness of the embedded `std::partition`: the front part satisfies the
predicate, the back part fails it, and together they are a permutation of the
input. -/
theorem bidirPartAux_spec (pred : Tup → Bool) :
    ∀ (n : Nat) (l : List Tup), l.length ≤ n →
      (∀ t ∈ (bidirPartAux pred n l).1, pred t = true)
      ∧ (∀ t ∈ (bidirPartAux pred n l).2, pred t = false)
      ∧ List.Perm ((bidirPartAux pred n l).1 ++ (bidirPartAux pred n l).2) l := by
  intro n
  induction n with
  | zero =>
    intro l h
    have : l = [] := List.length_eq_zero.mp (Nat.le_zero.mp h)
    subst this
    exact ⟨by simp [bidirPartAux], by simp [bidirPartAux], by simp [bidirPartAux]⟩
  | succ n ih =>
    intro l h
    show (∀ t ∈ (bidirPartAux pred (n + 1) l).1, pred t = true) ∧ _ ∧ _
    rw [bidirPartAux]
    cases hd : l.dropWhile pred with
    | nil =>
      dsimp only
      refine ⟨fun t ht => List.mem_takeWhile_imp ht, by simp, ?_⟩
      have : l.takeWhile pred ++ l.dropWhile pred = l := List.takeWhile_append_dropWhile _ _
      rw [hd, List.append_nil] at this
      rw [List.append_nil, this]
    | cons x rest =>
      have hx : pred x = false := dropWhile_head_false pred l x rest hd
      dsimp only
      cases hdr : rest.reverse.dropWhile (fun t => !pred t) with
      | nil =>
        dsimp only
        have hbk : rest.reverse.takeWhile (fun t => !pred t) ++
            rest.reverse.dropWhile (fun t => !pred t) = rest.reverse :=
          List.takeWhile_append_dropWhile _ _
        rw [hdr, List.append_nil] at hbk
        refine ⟨fun t ht => List.mem_takeWhile_imp ht, ?_, ?_⟩
        · intro t ht
          rcases List.mem_cons.mp ht with rfl | ht2
          · exact hx
          · have ht3 : t ∈ rest.reverse.takeWhile (fun t => !pred t) :=
              List.mem_reverse.mp ht2
            have := List.mem_takeWhile_imp ht3
            simpa using this
        · have hl : l.takeWhile pred ++ (x :: rest) = l := by
            rw [← hd]; exact List.takeWhile_append_dropWhile _ _
          have hrest : rest = (rest.reverse.takeWhile (fun t => !pred t)).reverse := by
            rw [hbk, List.reverse_reverse]
          have heq : List.takeWhile pred l ++
              x :: (rest.reverse.takeWhile (fun t => !pred t)).reverse = l := by
            rw [← hrest]; exact hl
          rw [heq]
      | cons y mrev =>
        dsimp only
        have hy : pred y = true := by
          have := dropWhile_head_false (fun t => !pred t) rest.reverse y mrev hdr
          simpa using this
        have hbk : rest.reverse.takeWhile (fun t => !pred t) ++ (y :: mrev) =
            rest.reverse := by
          rw [← hdr]; exact List.takeWhile_append_dropWhile _ _
        have hrest : rest = mrev.reverse ++ y :: (rest.reverse.takeWhile
            (fun t => !pred t)).reverse := by
          conv_lhs => rw [← List.reverse_reverse rest, ← hbk]
          rw [List.reverse_append, List.reverse_cons]
          simp
        have hmlen : mrev.reverse.length ≤ n := by
          have h1 : l.takeWhile pred ++ (x :: rest) = l := by
            rw [← hd]; exact List.takeWhile_append_dropWhile _ _
          have h2 : rest.length = mrev.reverse.length + 1 +
              (rest.reverse.takeWhile (fun t => !pred t)).reverse.length := by
            conv_lhs => rw [hrest]
            simp
            omega
          have h3 : l.length = (l.takeWhile pred).length + 1 + rest.length := by
            conv_lhs => rw [← h1]
            simp
            omega
          omega
        rcases ih mrev.reverse hmlen with ⟨ihf, ihb, ihp⟩
        refine ⟨?_, ?_, ?_⟩
        · intro t ht
          rcases List.mem_append.mp ht with ht2 | ht2
          · exact List.mem_takeWhile_imp ht2
          · rcases List.mem_cons.mp ht2 with rfl | ht3
            · exact hy
            · exact ihf t ht3
        · intro t ht
          rcases List.mem_append.mp ht with ht2 | ht2
          · exact ihb t ht2
          · rcases List.mem_cons.mp ht2 with rfl | ht3
            · exact hx
            · have := List.mem_takeWhile_imp (List.mem_reverse.mp ht3)
              simpa using this
        · have hl : l.takeWhile pred ++ (x :: rest) = l := by
            rw [← hd]; exact List.takeWhile_append_dropWhile _ _
          rw [← Multiset.coe_eq_coe]
          have hm2 : (↑(bidirPartAux pred n mrev.reverse).1 : Multiset Tup) +
              ↑(bidirPartAux pred n mrev.reverse).2 = ↑mrev.reverse := by
            rw [Multiset.coe_add]
            exact Multiset.coe_eq_coe.mpr ihp
          conv_rhs => rw [← hl]
          conv_rhs => rw [hrest]
          simp only [← Multiset.coe_add, ← Multiset.cons_coe]
          simp only [← Multiset.singleton_add]
          rw [← hm2]
          abel

/-- The splice's swap loop preserves the vector length. -/
theorem swapLoopAux_length (asz total : Nat) :
    ∀ (k : Nat) (v : List Tup), (swapLoopAux asz total k v).length = v.length := by
  intro k
  induction k with
  | zero => intro v; rfl
  | succ k ih =>
    intro v
    show ((((swapLoopAux asz total k v).set _ _).set _ _)).length = _
    rw [List.length_set, List.length_set, ih]

/-- The spliced vector has the combined length. -/
theorem spliceNew_length (act inact newt : List Tup) :
    (spliceNew act inact newt).1.length =
      act.length + inact.length + newt.length := by
  show (swapLoopAux _ _ _ _).length = _
  rw [swapLoopAux_length]
  simp
  omega

/-- Correctness of the embedded `std::partition`, stated over the wrapper. -/
theorem bidirPart_spec (pred : Tup → Bool) (l : List Tup) :
    (∀ t ∈ (bidirPart pred l).1, pred t = true)
    ∧ (∀ t ∈ (bidirPart pred l).2, pred t = false)
    ∧ List.Perm ((bidirPart pred l).1 ++ (bidirPart pred l).2) l :=
  bidirPartAux_spec pred l.length l (Nat.le_refl _)

/-- C4 (amended): Step 4 of the retirement variant partitions the active region
`[begin, pend)`: after the call every tuple in front of the new `pend`
satisfies `Pn ≠ INACTIVE`, every tuple between the new and the old `pend` has
`Pn = INACTIVE`, the active region is a permutation of the spliced active
region, and the suffix behind the old `pend` is untouched. The partition is
however not stable — `std::partition` may reorder the active tuples (see the
counterexample). -/
theorem C4_partition_behavior (act inact newt : List Tup) :
    (∀ t ∈ (step4 act inact newt).1.take (step4 act inact newt).2, t.pn ≠ MAXU)
    ∧ (∀ t ∈ ((step4 act inact newt).1.take (spliceNew act inact newt).2).drop
        (step4 act inact newt).2, t.pn = MAXU)
    ∧ List.Perm ((step4 act inact newt).1.take (spliceNew act inact newt).2)
        ((spliceNew act inact newt).1.take (spliceNew act inact newt).2)
    ∧ (step4 act inact newt).1.drop (spliceNew act inact newt).2 =
        (spliceNew act inact newt).1.drop (spliceNew act inact newt).2 := by
  have hP2 : (spliceNew act inact newt).2 = act.length + newt.length := rfl
  have hA : ((spliceNew act inact newt).1.take (spliceNew act inact newt).2).length =
      (spliceNew act inact newt).2 := by
    rw [List.length_take, spliceNew_length, hP2]
    omega
  rcases bidirPart_spec (fun t => t.pn != MAXU)
      ((spliceNew act inact newt).1.take (spliceNew act inact newt).2) with ⟨hf, hb, hp⟩
  have hfb : (bidirPart (fun t => t.pn != MAXU)
        ((spliceNew act inact newt).1.take (spliceNew act inact newt).2)).1.length +
      (bidirPart (fun t => t.pn != MAXU)
        ((spliceNew act inact newt).1.take (spliceNew act inact newt).2)).2.length =
      (spliceNew act inact newt).2 := by
    have := hp.length_eq
    rw [List.length_append] at this
    rw [this, hA]
  have hs1 : (step4 act inact newt).1 =
      (bidirPart (fun t => t.pn != MAXU)
        ((spliceNew act inact newt).1.take (spliceNew act inact newt).2)).1 ++
      (bidirPart (fun t => t.pn != MAXU)
        ((spliceNew act inact newt).1.take (spliceNew act inact newt).2)).2 ++
      (spliceNew act inact newt).1.drop (spliceNew act inact newt).2 := rfl
  have hs2 : (step4 act inact newt).2 =
      (bidirPart (fun t => t.pn != MAXU)
        ((spliceNew act inact newt).1.take (spliceNew act inact newt).2)).1.length := rfl
  refine ⟨?_, ?_, ?_, ?_⟩
  · intro t ht
    rw [hs1, hs2, List.append_assoc, List.take_left] at ht
    exact bne_iff_ne.mp (hf t ht)
  · intro t ht
    rw [hs1, hs2, List.take_left' (by rw [List.length_append]; exact hfb),
      List.drop_left] at ht
    have := hb t ht
    simpa using this
  · rw [hs1, List.take_left' (by rw [List.length_append]; exact hfb)]
    exact hp
  · rw [hs1, List.drop_left' (by rw [List.length_append]; exact hfb)]

/-- On the first subgroup rank the effective broadcast label is at most the
bucket head's `Pn`. -/
theorem effectiveMinPn_zero_le (pm b0 : Tup) : effectiveMinPn 0 pm b0 ≤ b0.pn := by
  unfold effectiveMinPn
  rw [bucketMinPn_zero]
  dsimp only
  split <;> omega

/-- The naive inner loop never writes a `Pc` above `max(pc, pn)` of the element
it rewrites, provided the broadcast label is below every element's `Pn`. -/
theorem naiveInner_pc_bound (m : Nat) :
    ∀ (l : List Tup) (pp : Nat) (ff : Bool), (∀ t ∈ l, m ≤ t.pn) →
      List.Forall₂ (fun a b => b.pc ≤ max a.pc a.pn) l (naiveInner m pp ff l).1 := by
  intro l
  induction l with
  | nil => intro pp ff _; exact List.Forall₂.nil
  | cons t rest ih =>
    intro pp ff hm
    have hmt : m ≤ t.pn := hm t (List.mem_cons_self _ _)
    have hrest : ∀ u ∈ rest, m ≤ u.pn := fun u hu => hm u (List.mem_cons_of_mem _ hu)
    show List.Forall₂ _ (t :: rest) (_ :: (naiveInner m t.pn _ rest).1)
    by_cases hdup : (t.pn == pp || t.pn == t.pc) = true
    · by_cases hff : ff = true
      · subst hff
        simp only [naiveInner, hdup, if_pos, Bool.not_true, if_neg]
        exact List.Forall₂.cons (by simp; omega) (ih t.pn true hrest)
      · have hff2 : ff = false := by cases ff; rfl; exact absurd rfl hff
        subst hff2
        simp only [naiveInner, hdup, if_pos, Bool.not_false, if_true]
        exact List.Forall₂.cons (by simp; omega) (ih t.pn true hrest)
    · simp only [naiveInner, hdup, Bool.false_eq_true, if_false, if_neg]
      exact List.Forall₂.cons (by simp) (ih t.pn ff hrest)

/-- The retirement inner loop, same bound (the `ALMOST_INACTIVE` restore sets
`Pn := Pc` before the rules apply). -/
theorem inactInner_pc_bound (m : Nat) :
    ∀ (l : List Tup) (pp : Nat) (ff : Bool), (∀ t ∈ l, m ≤ t.pn) →
      List.Forall₂ (fun a b => b.pc ≤ max a.pc a.pn) l (inactInner m pp ff l).1 := by
  intro l
  induction l with
  | nil => intro pp ff _; exact List.Forall₂.nil
  | cons t0 rest ih =>
    intro pp ff hm
    have hmt : m ≤ t0.pn := hm t0 (List.mem_cons_self _ _)
    have hrest : ∀ u ∈ rest, m ≤ u.pn := fun u hu => hm u (List.mem_cons_of_mem _ hu)
    by_cases hra : (t0.pn == MAXU - 1) = true
    · show List.Forall₂ _ (t0 :: rest) ((inactInner m pp ff (t0 :: rest)).1)
      simp only [inactInner, hra, if_pos]
      by_cases hdup : ((⟨t0.key, t0.pc, t0.pc⟩ : Tup).pn == pp ||
          (⟨t0.key, t0.pc, t0.pc⟩ : Tup).pn == (⟨t0.key, t0.pc, t0.pc⟩ : Tup).pc) = true
      · simp only [hdup, if_pos]
        by_cases hff : ff = true
        · subst hff
          simp only [Bool.not_true, Bool.false_eq_true, if_false]
          exact List.Forall₂.cons (by simp; omega) (ih _ true hrest)
        · have hff2 : ff = false := by cases ff; rfl; exact absurd rfl hff
          subst hff2
          simp only [Bool.not_false, if_true]
          exact List.Forall₂.cons (by simp; omega) (ih _ true hrest)
      · simp only [hdup, Bool.false_eq_true, if_false]
        exact List.Forall₂.cons (by simp) (ih _ ff hrest)
    · show List.Forall₂ _ (t0 :: rest) ((inactInner m pp ff (t0 :: rest)).1)
      simp only [inactInner, hra, Bool.false_eq_true, if_false]
      by_cases hdup : (t0.pn == pp || t0.pn == t0.pc) = true
      · simp only [hdup, if_pos]
        by_cases hff : ff = true
        · subst hff
          simp only [Bool.not_true, Bool.false_eq_true, if_false]
          exact List.Forall₂.cons (by simp; omega) (ih _ true hrest)
        · have hff2 : ff = false := by cases ff; rfl; exact absurd rfl hff
          subst hff2
          simp only [Bool.not_false, if_true]
          exact List.Forall₂.cons (by simp; omega) (ih _ true hrest)
      · simp only [hdup, Bool.false_eq_true, if_false]
        exact List.Forall₂.cons (by simp) (ih _ ff hrest)

/-- The naive bucket processing on a single rank never raises any element's
`Pc` above that element's previous `max(pc, pn)`, when the head carries the
bucket's smallest `Pn`. -/
theorem naiveBucket_pc_bound (pm pe nm : Tup) (b0 : Tup) (rest : List Tup)
    (hsort : ∀ t ∈ b0 :: rest, b0.pn ≤ t.pn) :
    List.Forall₂ (fun a b => b.pc ≤ max a.pc a.pn) (b0 :: rest)
      (naiveBucket 0 1 pm pe nm (b0 :: rest)).1 := by
  have hrest : ∀ t ∈ rest, b0.pn ≤ t.pn := fun t ht =>
    hsort t (List.mem_cons_of_mem _ ht)
  simp only [naiveBucket, beq_self_eq_true, Bool.true_or, Bool.and_true]
  by_cases hre : rest.isEmpty = true
  · have : rest = [] := List.isEmpty_iff.mp hre
    subst this
    simp only [hre, if_pos]
    exact List.Forall₂.cons (by simp) List.Forall₂.nil
  · rw [Bool.not_eq_true] at hre
    simp only [hre, Bool.false_eq_true, if_false]
    by_cases hcv : (bucketMinPn 0 pm b0 ==
        bucketMaxPn 0 1 nm b0 ((b0 :: rest).getLastD zeroTup)) = true
    · rw [if_pos hcv]
      rw [List.forall₂_map_right_iff]
      rw [List.forall₂_same]
      intro x _
      simp
    · rw [if_neg hcv]
      rw [bucketMinPn_zero]
      exact List.Forall₂.cons (by simp)
        (naiveInner_pc_bound b0.pn rest b0.pn false hrest)

/-- The retirement bucket processing on a single subgroup rank (world rank 0),
same bound. -/
theorem inactBucket_pc_bound (pm pe nm : Tup) (b0 : Tup) (rest : List Tup)
    (hsort : ∀ t ∈ b0 :: rest, b0.pn ≤ t.pn) :
    List.Forall₂ (fun a b => b.pc ≤ max a.pc a.pn) (b0 :: rest)
      (inactBucket 0 0 1 pm pe nm (b0 :: rest)).1 := by
  have hrest : ∀ t ∈ rest, b0.pn ≤ t.pn := fun t ht =>
    hsort t (List.mem_cons_of_mem _ ht)
  have hmin : effectiveMinPn 0 pm b0 ≤ b0.pn := effectiveMinPn_zero_le pm b0
  have hrest2 : ∀ t ∈ rest, effectiveMinPn 0 pm b0 ≤ t.pn := fun t ht =>
    Nat.le_trans hmin (hrest t ht)
  simp only [inactBucket, beq_self_eq_true, Bool.true_or, Bool.and_true]
  by_cases hre : rest.isEmpty = true
  · have : rest = [] := List.isEmpty_iff.mp hre
    subst this
    simp only [hre, if_pos]
    by_cases hai : (b0.pn == MAXU - 1) = true
    · rw [if_pos hai]
      exact List.Forall₂.cons (by simp) List.Forall₂.nil
    · rw [if_neg hai]
      exact List.Forall₂.cons (by simp) List.Forall₂.nil
  · rw [Bool.not_eq_true] at hre
    simp only [hre, Bool.false_eq_true, if_false]
    by_cases hcv : (bucketMinPn 0 pm b0 ==
        bucketMaxPn 0 1 nm b0 ((b0 :: rest).getLastD zeroTup)) = true
    · rw [if_pos hcv]
      by_cases h3 : (bucketMaxPn 0 1 nm b0 ((b0 :: rest).getLastD zeroTup) ==
          MAXU - 1) = true
      · rw [if_pos h3]
        rw [List.forall₂_map_right_iff, List.forall₂_same]
        intro x _
        simp
      · rw [if_neg h3]
        by_cases h4 : (b0.pc == bucketMaxPn 0 1 nm b0 ((b0 :: rest).getLastD zeroTup)) = true
        · rw [if_pos h4]
          rw [List.forall₂_map_right_iff, List.forall₂_same]
          intro x _
          simp
        · rw [if_neg h4]
          rw [List.forall₂_map_right_iff, List.forall₂_same]
          intro x _
          simp
    · rw [if_neg hcv]
      by_cases h5 : b0.pn > effectiveMinPn 0 pm b0
      · rw [if_pos h5]
        exact List.Forall₂.cons (by simp)
          (inactInner_pc_bound _ rest (effectiveMinPn 0 pm b0) false hrest2)
      · rw [if_neg h5]
        exact List.Forall₂.cons (by simp)
          (inactInner_pc_bound _ rest (effectiveMinPn 0 pm b0) false hrest2)

/-- Within a bucket of a `(Pc, Pn)`-sorted slice the head's `Pn` is minimal. -/
theorem bucket_head_pn_min (x : Tup) (xs : List Tup) (hs : List.Sorted lePcPn (x :: xs)) :
    ∀ t ∈ x :: xs.takeWhile (fun t => t.pc == x.pc), x.pn ≤ t.pn := by
  intro t ht
  rcases List.mem_cons.mp ht with rfl | ht2
  · exact Nat.le_refl _
  · have hpc : t.pc = x.pc := by
      have := List.mem_takeWhile_imp ht2
      exact beq_iff_eq.mp this
    have hrel : lePcPn x t :=
      List.rel_of_sorted_cons hs t ((List.takeWhile_sublist _).subset ht2)
    rcases hrel with h | ⟨_, h⟩
    · omega
    · exact h

/-- The naive scan on a sorted slice, single rank: pointwise `Pc` bound. -/
theorem naiveScanAux_pc_bound (pm pe nm : Tup) :
    ∀ (n : Nat) (l : List Tup), l.length ≤ n → List.Sorted lePcPn l →
      List.Forall₂ (fun a b => b.pc ≤ max a.pc a.pn) l
        (naiveScanAux 0 1 pm pe nm n l).1 := by
  intro n
  induction n with
  | zero =>
    intro l h _
    have : l = [] := List.length_eq_zero.mp (Nat.le_zero.mp h)
    subst this
    exact List.Forall₂.nil
  | succ n ih =>
    intro l h hs
    cases l with
    | nil => exact List.Forall₂.nil
    | cons x xs =>
      have hbf : (x :: xs).takeWhile (fun t => t.pc == x.pc) =
          x :: xs.takeWhile (fun t => t.pc == x.pc) :=
        List.takeWhile_cons_of_pos (by simp)
      have hstep : (naiveScanAux 0 1 pm pe nm (n + 1) (x :: xs)).1 =
          (naiveBucket 0 1 pm pe nm ((x :: xs).takeWhile (fun t => t.pc == x.pc))).1 ++
          (naiveScanAux 0 1 pm pe nm n ((x :: xs).dropWhile (fun t => t.pc == x.pc))).1 :=
        rfl
      have h1 : List.Forall₂ (fun a b => b.pc ≤ max a.pc a.pn)
          ((x :: xs).takeWhile (fun t => t.pc == x.pc))
          ((naiveBucket 0 1 pm pe nm ((x :: xs).takeWhile (fun t => t.pc == x.pc))).1) := by
        rw [hbf]
        exact naiveBucket_pc_bound pm pe nm x _ (bucket_head_pn_min x xs hs)
      have h2 : List.Forall₂ (fun a b => b.pc ≤ max a.pc a.pn)
          ((x :: xs).dropWhile (fun t => t.pc == x.pc))
          ((naiveScanAux 0 1 pm pe nm n ((x :: xs).dropWhile (fun t => t.pc == x.pc))).1) :=
        ih _ (Nat.le_trans (bucketRest_length x xs) (Nat.le_of_succ_le_succ h))
          (hs.sublist (List.dropWhile_sublist _))
      have hall := List.rel_append h1 h2
      dsimp only at hall
      rw [List.takeWhile_append_dropWhile] at hall
      rw [hstep]
      exact hall

/-- The retirement scan on a sorted slice, single subgroup rank at world rank
0: pointwise `Pc` bound. -/
theorem inactScanAux_pc_bound (pm pe nm : Tup) :
    ∀ (n : Nat) (l : List Tup), l.length ≤ n → List.Sorted lePcPn l →
      List.Forall₂ (fun a b => b.pc ≤ max a.pc a.pn) l
        (inactScanAux 0 0 1 pm pe nm n l).1 := by
  intro n
  induction n with
  | zero =>
    intro l h _
    have : l = [] := List.length_eq_zero.mp (Nat.le_zero.mp h)
    subst this
    exact List.Forall₂.nil
  | succ n ih =>
    intro l h hs
    cases l with
    | nil => exact List.Forall₂.nil
    | cons x xs =>
      have hbf : (x :: xs).takeWhile (fun t => t.pc == x.pc) =
          x :: xs.takeWhile (fun t => t.pc == x.pc) :=
        List.takeWhile_cons_of_pos (by simp)
      have hstep : (inactScanAux 0 0 1 pm pe nm (n + 1) (x :: xs)).1 =
          (inactBucket 0 0 1 pm pe nm ((x :: xs).takeWhile (fun t => t.pc == x.pc))).1 ++
          (inactScanAux 0 0 1 pm pe nm n ((x :: xs).dropWhile (fun t => t.pc == x.pc))).1 :=
        rfl
      have h1 : List.Forall₂ (fun a b => b.pc ≤ max a.pc a.pn)
          ((x :: xs).takeWhile (fun t => t.pc == x.pc))
          ((inactBucket 0 0 1 pm pe nm ((x :: xs).takeWhile (fun t => t.pc == x.pc))).1) := by
        rw [hbf]
        exact inactBucket_pc_bound pm pe nm x _ (bucket_head_pn_min x xs hs)
      have h2 : List.Forall₂ (fun a b => b.pc ≤ max a.pc a.pn)
          ((x :: xs).dropWhile (fun t => t.pc == x.pc))
          ((inactScanAux 0 0 1 pm pe nm n ((x :: xs).dropWhile (fun t => t.pc == x.pc))).1) :=
        ih _ (Nat.le_trans (bucketRest_length x xs) (Nat.le_of_succ_le_succ h))
          (hs.sublist (List.dropWhile_sublist _))
      have hall := List.rel_append h1 h2
      dsimp only at hall
      rw [List.takeWhile_append_dropWhile] at hall
      rw [hstep]
      exact hall

/-- C3 (amended): a tuple's `Pc` is not monotone across super-steps (the edge
rule writes the previous `Pn` into `Pc`, which for a flipped tuple exceeds it —
see the counterexample); what does hold is that on a sorted slice processed on
a single rank, both variants' scans only ever write into an element's `Pc` a
value bounded by that element's previous `max(pc, pn)` (positions correspond:
the scans update in place). -/
theorem C3_pc_bound (l : List Tup) (hs : List.Sorted lePcPn l) :
    List.Forall₂ (fun a b => b.pc ≤ max a.pc a.pn) l
      (naiveScan 0 1 zeroTup zeroTup zeroTup l).1
    ∧ List.Forall₂ (fun a b => b.pc ≤ max a.pc a.pn) l
      (inactScan 0 0 1 zeroTup zeroTup zeroTup l).1 :=
  ⟨naiveScanAux_pc_bound zeroTup zeroTup zeroTup l.length l (Nat.le_refl _) hs,
   inactScanAux_pc_bound zeroTup zeroTup zeroTup l.length l (Nat.le_refl _) hs⟩

/-- Witness for `C3_pc_bound` at a concrete sorted slice. -/
theorem C3_pc_bound_witness :
    List.Sorted lePcPn [(⟨5,1,2⟩ : Tup), ⟨6,3,2⟩, ⟨7,1,4⟩]
    ∧ (List.Forall₂ (fun a b => b.pc ≤ max a.pc a.pn)
        [(⟨5,1,2⟩ : Tup), ⟨6,3,2⟩, ⟨7,1,4⟩]
        (naiveScan 0 1 zeroTup zeroTup zeroTup [⟨5,1,2⟩, ⟨6,3,2⟩, ⟨7,1,4⟩]).1
      ∧ List.Forall₂ (fun a b => b.pc ≤ max a.pc a.pn)
        [(⟨5,1,2⟩ : Tup), ⟨6,3,2⟩, ⟨7,1,4⟩]
        (inactScan 0 0 1 zeroTup zeroTup zeroTup [⟨5,1,2⟩, ⟨6,3,2⟩, ⟨7,1,4⟩]).1) :=
  ⟨by decide, C3_pc_bound [⟨5,1,2⟩, ⟨6,3,2⟩, ⟨7,1,4⟩] (by decide)⟩

/-- Joining is flattening (definitional bridge for rewriting). -/
theorem join_eq_flatten {α : Type} (l : List (List α)) : l.join = l.flatten := rfl

/-- Every seed kept by the local-unique scan comes from the scanned list. -/
theorem luAux_subset (l : List Tup) : ∀ prev, luAux prev l ⊆ l := by
  induction l with
  | nil => intro prev t ht; exact absurd ht (List.not_mem_nil t)
  | cons a r ih =>
    intro prev t ht
    simp only [luAux] at ht
    by_cases h : prev.pc < a.pc
    · rw [if_pos h] at ht
      rcases List.mem_cons.mp ht with rfl | ht2
      · exact List.mem_cons_self _ _
      · exact List.mem_cons_of_mem _ (ih a ht2)
    · rw [if_neg h] at ht
      exact List.mem_cons_of_mem _ (ih prev ht)

/-- The local seeds are a subset of the slice. -/
theorem localUnique_subset (l : List Tup) : localUnique l ⊆ l := by
  cases l with
  | nil => exact fun t ht => absurd ht (List.not_mem_nil t)
  | cons x xs =>
    intro t ht
    rcases List.mem_cons.mp ht with rfl | ht2
    · exact List.mem_cons_self _ _
    · exact List.mem_cons_of_mem _ (luAux_subset xs x ht2)

/-- On a `Pc`-sorted tail bounded below by `prev`, the unique scan keeps a
representative of every `Pc` value other than the one already kept. -/
theorem luAux_pc_complete (l : List Tup) : ∀ prev, List.Sorted lePc l →
    (∀ u ∈ l, prev.pc ≤ u.pc) →
    ∀ t ∈ l, t.pc = prev.pc ∨ ∃ u ∈ luAux prev l, u.pc = t.pc := by
  induction l with
  | nil => intro prev _ _ t ht; exact absurd ht (List.not_mem_nil t)
  | cons a r ih =>
    intro prev hs hlb t ht
    by_cases h : prev.pc < a.pc
    · have hl : luAux prev (a :: r) = a :: luAux a r := by simp [luAux, h]
      rcases List.mem_cons.mp ht with rfl | ht2
      · exact Or.inr ⟨t, hl ▸ List.mem_cons_self _ _, rfl⟩
      · have hsr : List.Sorted lePc r := hs.of_cons
        have hlbr : ∀ u ∈ r, a.pc ≤ u.pc := fun u hu => List.rel_of_sorted_cons hs u hu
        rcases ih a hsr hlbr t ht2 with heq | ⟨u, hu, hupc⟩
        · exact Or.inr ⟨a, hl ▸ List.mem_cons_self _ _, heq.symm ▸ rfl⟩
        · exact Or.inr ⟨u, hl ▸ List.mem_cons_of_mem _ hu, hupc⟩
    · have hl : luAux prev (a :: r) = luAux prev r := by simp [luAux, h]
      have hae : a.pc = prev.pc :=
        Nat.le_antisymm (Nat.le_of_not_lt h) (hlb a (List.mem_cons_self a r))
      rcases List.mem_cons.mp ht with rfl | ht2
      · exact Or.inl hae
      · have hsr : List.Sorted lePc r := hs.of_cons
        have hlbr : ∀ u ∈ r, prev.pc ≤ u.pc := fun u hu => hlb u (List.mem_cons_of_mem a hu)
        rcases ih prev hsr hlbr t ht2 with heq | ⟨u, hu, hupc⟩
        · exact Or.inl heq
        · exact Or.inr ⟨u, hl ▸ hu, hupc⟩

/-- On a `Pc`-sorted slice the local seeds carry every `Pc` value present. -/
theorem localUnique_pc_complete (l : List Tup) (hs : List.Sorted lePc l) :
    ∀ t ∈ l, ∃ u ∈ localUnique l, u.pc = t.pc := by
  cases l with
  | nil => intro t ht; exact absurd ht (List.not_mem_nil t)
  | cons x xs =>
    intro t ht
    rcases List.mem_cons.mp ht with rfl | ht2
    · exact ⟨t, List.mem_cons_self _ _, rfl⟩
    · have hlb : ∀ u ∈ xs, x.pc ≤ u.pc := fun u hu => List.rel_of_sorted_cons hs u hu
      rcases luAux_pc_complete xs x hs.of_cons hlb t ht2 with heq | ⟨u, hu, hupc⟩
      · exact ⟨x, List.mem_cons_self _ _, heq.symm⟩
      · exact ⟨u, List.mem_cons_of_mem _ hu, hupc⟩

/-- Every slice of a size-split is a sublist of the split sequence. -/
theorem splitSizes_sublist : ∀ (sizes : List Nat) (l v : List Tup),
    v ∈ splitSizes sizes l → v.Sublist l := by
  intro sizes
  induction sizes with
  | nil => intro l v hv; exact absurd hv (List.not_mem_nil v)
  | cons s ss ih =>
    intro l v hv
    simp only [splitSizes] at hv
    rcases List.mem_cons.mp hv with rfl | hv2
    · exact List.take_sublist s l
    · exact (ih _ v hv2).trans (List.drop_sublist s l)

/-- The globally sorted seed-extraction sequence is sorted by `Pc`. -/
theorem gpsSorted_sorted (st : List (List Tup)) : List.Sorted lePc (gpsSorted st) :=
  List.sorted_insertionSort lePc _

/-- Each slice of the post-call buffer is sorted by `Pc`. -/
theorem gpsBuffer_mem_sorted (st : List (List Tup)) (v : List Tup)
    (hv : v ∈ gpsBuffer st) : List.Sorted lePc v :=
  (gpsSorted_sorted st).sublist (splitSizes_sublist _ _ v hv)

/-- The send segments concatenate back to the local seed list. -/
theorem mkSegs_join (sps : List Tup) : ∀ s : List Tup, (mkSegs s sps).join = s := by
  induction sps with
  | nil => intro s; simp [mkSegs]
  | cons sp rest ih =>
    intro s
    simp only [mkSegs, List.join_cons, ih]
    exact List.take_append_drop _ s

/-- One send segment per splitter, plus the remainder. -/
theorem mkSegs_length (sps : List Tup) : ∀ s : List Tup,
    (mkSegs s sps).length = sps.length + 1 := by
  induction sps with
  | nil => intro s; rfl
  | cons sp rest ih => intro s; simp [mkSegs, ih]

/-- Padding with empty segments preserves indexed access below the old length. -/
theorem padTo_getD (p : Nat) (l : List (List Tup)) (j : Nat) (h : j < l.length) :
    (padTo p l).getD j [] = l.getD j [] := by
  unfold padTo
  rw [List.getD_eq_getElem?_getD, List.getD_eq_getElem?_getD,
    List.getElem?_append_left h]

/-- A padded segment is an original segment or empty. -/
theorem padTo_mem (p : Nat) (l : List (List Tup)) (sg : List Tup)
    (h : sg ∈ padTo p l) : sg ∈ l ∨ sg = [] := by
  unfold padTo at h
  rcases List.mem_append.mp h with h1 | h1
  · exact Or.inl h1
  · exact Or.inr (List.eq_of_mem_replicate h1)

/-- An indexed segment is a segment of the list or the default. -/
theorem getD_mem_or (l : List (List Tup)) (j : Nat) :
    l.getD j [] ∈ l ∨ l.getD j [] = [] := by
  by_cases h : j < l.length
  · left
    rw [List.getD_eq_getElem l [] h]
    exact List.getElem_mem h
  · right
    exact List.getD_eq_default _ _ (Nat.le_of_not_lt h)

/-- A list whose entries carry at most one element joins to at most its length. -/
theorem join_length_le (l : List (List Tup)) (h : ∀ x ∈ l, x.length ≤ 1) :
    l.join.length ≤ l.length := by
  rw [join_eq_flatten]
  induction l with
  | nil => simp
  | cons a r ih =>
    rw [List.flatten_cons, List.length_append, List.length_cons]
    have h1 := h a (List.mem_cons_self a r)
    have h2 := ih (fun x hx => h x (List.mem_cons_of_mem a hx))
    omega

/-- A join over `range (p+1)` of at-most-singletons that vanish at rank 0 has at
most `p` elements. -/
theorem range_join_length (f : Nat → List Tup) (p : Nat)
    (h0 : f 0 = []) (h1 : ∀ r, (f r).length ≤ 1) :
    (((List.range (p + 1)).map f).join).length ≤ p := by
  rw [join_eq_flatten, List.range_succ_eq_map, List.map_cons, List.flatten_cons,
    h0, List.nil_append, List.map_map]
  have h2 := join_length_le ((List.range p).map (f ∘ Nat.succ))
    (fun x hx => by rcases List.mem_map.mp hx with ⟨r, _, rfl⟩; exact h1 _)
  rw [join_eq_flatten] at h2
  simpa using h2

/-- There are fewer splitters than ranks: rank 0 contributes none, every other
rank at most one. -/
theorem gpsSplitters_length_lt (st : List (List Tup)) (h : st ≠ []) :
    (gpsSplitters st).length < st.length := by
  obtain ⟨p, hp⟩ : ∃ p, st.length = p + 1 :=
    ⟨st.length - 1, by have := List.length_pos.mpr h; omega⟩
  unfold gpsSplitters
  rw [hp]
  have h2 := range_join_length (fun r =>
    if r > 0 && !((gpsSeeds st).getD r []).isEmpty then
      [((gpsSeeds st).getD r []).headD zeroTup] else []) p (by simp)
    (fun r => by dsimp only; split_ifs <;> simp)
  omega

/-- `Pc`-membership transfers along element-set equivalence. -/
theorem map_pc_mem_congr (A B : List Tup) (hAB : ∀ t, t ∈ A ↔ t ∈ B) (x : Nat) :
    x ∈ A.map Tup.pc ↔ x ∈ B.map Tup.pc := by
  constructor <;> intro hx <;> rcases List.mem_map.mp hx with ⟨u, hu, rfl⟩
  · exact List.mem_map.mpr ⟨u, (hAB u).mp hu, rfl⟩
  · exact List.mem_map.mpr ⟨u, (hAB u).mpr hu, rfl⟩

/-- The all-to-all delivers exactly the elements of the local seed lists. -/
theorem gpsRecv_mem (st : List (List Tup)) (h : st ≠ []) (t : Tup) :
    t ∈ (gpsRecv st).join ↔ t ∈ (gpsSeeds st).join := by
  rw [join_eq_flatten, join_eq_flatten]
  constructor
  · intro ht
    rcases List.mem_flatten.mp ht with ⟨lj, hlj, htl⟩
    simp only [gpsRecv, List.mem_map] at hlj
    rcases hlj with ⟨j, _, rfl⟩
    rw [join_eq_flatten] at htl
    rcases List.mem_flatten.mp htl with ⟨piece, hpiece, htp⟩
    rcases List.mem_map.mp hpiece with ⟨sg, hsg, rfl⟩
    simp only [gpsSegs, List.mem_map] at hsg
    rcases hsg with ⟨s, hs, rfl⟩
    rcases getD_mem_or (padTo st.length (mkSegs s (gpsSplitters st))) j with hmem | hemp
    · rcases padTo_mem _ _ _ hmem with hseg | hseg
      · have hts : t ∈ s := by
          rw [← mkSegs_join (gpsSplitters st) s, join_eq_flatten]
          exact List.mem_flatten.mpr ⟨_, hseg, htp⟩
        exact List.mem_flatten.mpr ⟨s, hs, hts⟩
      · rw [hseg] at htp
        exact absurd htp (List.not_mem_nil t)
    · rw [hemp] at htp
      exact absurd htp (List.not_mem_nil t)
  · intro ht
    rcases List.mem_flatten.mp ht with ⟨s, hs, hts⟩
    have hts2 : t ∈ (mkSegs s (gpsSplitters st)).flatten := by
      rw [← join_eq_flatten, mkSegs_join]
      exact hts
    rcases List.mem_flatten.mp hts2 with ⟨seg, hseg, htseg⟩
    rcases List.getElem_of_mem hseg with ⟨j, hj, hjeq⟩
    have hjp : j < st.length := by
      rw [mkSegs_length] at hj
      have h2 := gpsSplitters_length_lt st h
      omega
    have hgd : (padTo st.length (mkSegs s (gpsSplitters st))).getD j [] = seg := by
      rw [padTo_getD _ _ _ hj, List.getD_eq_getElem _ _ hj, hjeq]
    have hsg : padTo st.length (mkSegs s (gpsSplitters st)) ∈ gpsSegs st := by
      simp only [gpsSegs, List.mem_map]
      exact ⟨s, hs, rfl⟩
    refine List.mem_flatten.mpr
      ⟨((gpsSegs st).map (fun sg => sg.getD j [])).join, ?_, ?_⟩
    · simp only [gpsRecv, List.mem_map]
      exact ⟨j, List.mem_range.mpr hjp, rfl⟩
    · rw [join_eq_flatten]
      refine List.mem_flatten.mpr
        ⟨(padTo st.length (mkSegs s (gpsSplitters st))).getD j [], ?_, ?_⟩
      · exact List.mem_map.mpr ⟨padTo st.length (mkSegs s (gpsSplitters st)), hsg, rfl⟩
      · rw [hgd]
        exact htseg

/-- Per rank, re-sorting and re-deduplicating preserves the `Pc` value set. -/
theorem localUnique_sortPc_pc_mem (v : List Tup) (x : Nat) :
    x ∈ (localUnique (sortPc v)).map Tup.pc ↔ x ∈ v.map Tup.pc := by
  constructor
  · intro hx
    rcases List.mem_map.mp hx with ⟨u, hu, rfl⟩
    have h1 : u ∈ sortPc v := localUnique_subset _ hu
    have h2 : u ∈ v := (List.perm_insertionSort lePc v).mem_iff.mp h1
    exact List.mem_map.mpr ⟨u, h2, rfl⟩
  · intro hx
    rcases List.mem_map.mp hx with ⟨u, hu, rfl⟩
    have h1 : u ∈ sortPc v := (List.perm_insertionSort lePc v).mem_iff.mpr hu
    rcases localUnique_pc_complete (sortPc v) (List.sorted_insertionSort lePc v) u h1
      with ⟨w, hw, hwpc⟩
    exact List.mem_map.mpr ⟨w, hw, hwpc⟩

/-- The final per-rank dedup preserves the global `Pc` value set. -/
theorem gpsFinal_pc_mem (st : List (List Tup)) (x : Nat) :
    x ∈ ((gpsFinal st).join.map Tup.pc) ↔ x ∈ ((gpsRecv st).join.map Tup.pc) := by
  rw [join_eq_flatten, join_eq_flatten]
  constructor
  · intro hx
    rcases List.mem_map.mp hx with ⟨u, hu, rfl⟩
    rcases List.mem_flatten.mp hu with ⟨lj, hlj, hul⟩
    simp only [gpsFinal, List.mem_map] at hlj
    rcases hlj with ⟨rj, hrj, rfl⟩
    have h2 := (localUnique_sortPc_pc_mem rj u.pc).mp (List.mem_map.mpr ⟨u, hul, rfl⟩)
    rcases List.mem_map.mp h2 with ⟨w, hw, hwpc⟩
    exact List.mem_map.mpr ⟨w, List.mem_flatten.mpr ⟨rj, hrj, hw⟩, hwpc⟩
  · intro hx
    rcases List.mem_map.mp hx with ⟨u, hu, rfl⟩
    rcases List.mem_flatten.mp hu with ⟨rj, hrj, hul⟩
    have h2 := (localUnique_sortPc_pc_mem rj u.pc).mpr (List.mem_map.mpr ⟨u, hul, rfl⟩)
    rcases List.mem_map.mp h2 with ⟨w, hw, hwpc⟩
    refine List.mem_map.mpr ⟨w, List.mem_flatten.mpr ⟨localUnique (sortPc rj), ?_, hw⟩, hwpc⟩
    simp only [gpsFinal, List.mem_map]
    exact ⟨rj, hrj, rfl⟩

/-- The local seed extraction preserves the global `Pc` value set (each slice is
sorted, so every value keeps a representative). -/
theorem gpsSeeds_pc_mem (st : List (List Tup)) (x : Nat) :
    x ∈ ((gpsSeeds st).join.map Tup.pc) ↔ x ∈ ((gpsBuffer st).join.map Tup.pc) := by
  rw [join_eq_flatten, join_eq_flatten]
  constructor
  · intro hx
    rcases List.mem_map.mp hx with ⟨u, hu, rfl⟩
    rcases List.mem_flatten.mp hu with ⟨lj, hlj, hul⟩
    simp only [gpsSeeds, List.mem_map] at hlj
    rcases hlj with ⟨v, hv, rfl⟩
    exact List.mem_map.mpr ⟨u, List.mem_flatten.mpr ⟨v, hv, localUnique_subset v hul⟩, rfl⟩
  · intro hx
    rcases List.mem_map.mp hx with ⟨u, hu, rfl⟩
    rcases List.mem_flatten.mp hu with ⟨v, hv, hul⟩
    rcases localUnique_pc_complete v (gpsBuffer_mem_sorted st v hv) u hul with ⟨w, hw, hwpc⟩
    refine List.mem_map.mpr ⟨w, List.mem_flatten.mpr ⟨localUnique v, ?_, hw⟩, hwpc⟩
    simp only [gpsSeeds, List.mem_map]
    exact ⟨v, hv, rfl⟩

/-- The redistribution and global `Pc`-sort preserve the `Pc` value set. -/
theorem gpsBuffer_pc_mem (st : List (List Tup)) (h : st ≠ []) (x : Nat) :
    x ∈ ((gpsBuffer st).join.map Tup.pc) ↔ x ∈ (st.join.map Tup.pc) := by
  rw [gpsBuffer_join st h, ((gpsSorted_perm st h).map Tup.pc).mem_iff,
    pnOverwrite_join, List.map_map]
  exact Iff.rfl

/-- C7 (amended): the multirank seed extraction can emit the same partition
label from two ranks (the splitter routing compares with `==`, so a seed list
can be cut wrongly — see the counterexample), but it does preserve the SET of
partition labels: a `Pc` value occurs among the final seeds of some rank iff it
occurs in the tuple buffer. -/
theorem C7_seed_pc_set (st : List (List Tup)) (h : st ≠ []) (x : Nat) :
    x ∈ ((getPartitionSeedsMulti st).2.join.map Tup.pc) ↔ x ∈ (st.join.map Tup.pc) := by
  have h1 : (getPartitionSeedsMulti st).2 = gpsFinal st := rfl
  rw [h1, gpsFinal_pc_mem st x, map_pc_mem_congr _ _ (gpsRecv_mem st h) x,
    gpsSeeds_pc_mem st x, gpsBuffer_pc_mem st h x]

/-- Witness for `C7_seed_pc_set` at a concrete two-rank state. -/
theorem C7_seed_pc_set_witness :
    ([[(⟨1,2,3⟩ : Tup)], [⟨4,5,6⟩]] ≠ ([] : List (List Tup)))
    ∧ (3 ∈ ((getPartitionSeedsMulti [[(⟨1,2,3⟩ : Tup)], [⟨4,5,6⟩]]).2.join.map Tup.pc) ↔
        3 ∈ (([[(⟨1,2,3⟩ : Tup)], [⟨4,5,6⟩]].join).map Tup.pc)) :=
  ⟨by decide, C7_seed_pc_set [[⟨1,2,3⟩], [⟨4,5,6⟩]] (by decide) 3⟩
